import Mathlib

/-!
# Verification of the financial_pattern_discovery clustering / naming / scoring core

Shallow embedding of `src/financial_pattern_discovery/clustering.py`,
`canonical.py` and `fuzzy_matcher.py`.  Strings are modelled with ASCII
character semantics (the inputs of this pipeline are cleaned ASCII label
strings); Python regular expressions that the source applies are embedded
as explicit character-list matchers with word-boundary (`\b`) and
whitespace (`\s`) semantics.  The external numeric components
(`TfidfVectorizer`, `KMeans` from scikit-learn and `fuzz.WRatio` from
rapidfuzz) are abstracted as oracle parameters: the k-means step is a
function producing one integer label per input term, the feature
extraction a function from a cluster's member terms to its feature list,
and the weighted-ratio similarity a function returning a rational score.
All properties proved below hold for every choice of these oracles
(restricted, where needed, by the stated hypotheses such as "the labeler
returns one label per term", which `KMeans.fit_predict` guarantees).
-/

namespace FinPattern

/-- Python `\s` (ASCII part): the whitespace characters recognised by
`str.split()`, `str.strip()` and the `\s` regex class. -/
def isSpaceChar (c : Char) : Bool :=
  c = ' ' || c = '\t' || c = '\n' || c = '\r' || c = '\x0b' || c = '\x0c'

/-- Python `\w` (ASCII part): regex word characters. -/
def isWordCharB (c : Char) : Bool :=
  c.isAlphanum || c = '_'

/-- `\b` holds before the current position: the previous character (if any)
is not a word character.  `none` means start of string. -/
def prevOk (prev : Option Char) : Bool :=
  match prev with
  | none => true
  | some c => !isWordCharB c

/-- `\b` holds after a just-matched word: the next character (if any) is
not a word character. -/
def boundAfter (cs : List Char) : Bool :=
  match cs with
  | [] => true
  | c :: _ => !isWordCharB c

/-- Match the literal (lowercase) pattern `pat` at the head of `cs`,
comparing case-insensitively (text characters are lowered), returning the
rest of the text on success. -/
def eatLit : List Char → List Char → Option (List Char)
  | [], cs => some cs
  | _ :: _, [] => none
  | p :: ps, c :: cs => if c.toLower = p then eatLit ps cs else none

/-- Case-sensitive prefix test for substring containment
(Python `sub in s`). -/
def isPrefixExact : List Char → List Char → Bool
  | [], _ => true
  | _ :: _, [] => false
  | p :: ps, c :: cs => p = c && isPrefixExact ps cs

/-- Python `sub in s` (substring containment, case-sensitive). -/
def containsSub (pat : List Char) : List Char → Bool
  | [] => isPrefixExact pat []
  | c :: rest => isPrefixExact pat (c :: rest) || containsSub pat rest

/-- Python `sub in s` on strings. -/
def strContains (s sub : String) : Bool :=
  containsSub sub.data s.data

/-- Python `s.lower()` (ASCII). -/
def strToLower (s : String) : String :=
  String.mk (s.data.map Char.toLower)

/-- Python `s.startswith(p)`. -/
def strStartsWith (s p : String) : Bool :=
  isPrefixExact p.data s.data

/-- Python `s.strip()` (ASCII whitespace). -/
def pyStrip (s : String) : String :=
  String.mk (((s.data.dropWhile isSpaceChar).reverse.dropWhile isSpaceChar).reverse)

/-- The words of a character list: maximal non-whitespace runs. -/
def wordsGo (cur : List Char) : List Char → List (List Char)
  | [] => if cur.isEmpty then [] else [cur.reverse]
  | c :: rest =>
    if isSpaceChar c then
      if cur.isEmpty then wordsGo [] rest else cur.reverse :: wordsGo [] rest
    else wordsGo (c :: cur) rest

/-- Python `s.split()`: split on whitespace runs, discarding empty pieces. -/
def pySplit (s : String) : List String :=
  (wordsGo [] s.data).map String.mk

/-- Split a character list on a separator character, keeping empty
pieces (Python `s.split(sep)` with an explicit separator). -/
def splitChar (sep : Char) : List Char → List (List Char)
  | [] => [[]]
  | c :: rest =>
    let r := splitChar sep rest
    if c = sep then [] :: r else (c :: r.headD []) :: r.tail

/-- Python `s.split('_')`. -/
def splitUnderscore (s : String) : List String :=
  (splitChar '_' s.data).map String.mk

/-- Python `s.replace(a, b)` for single characters. -/
def replaceChar (a b : Char) (s : String) : String :=
  String.mk (s.data.map (fun c => if c = a then b else c))

/-- Python `s.replace(' ', '_')` (spaces only, not all whitespace). -/
def spacesToUnderscores (s : String) : String :=
  replaceChar ' ' '_' s

/-- Python `sep.join(parts)`. -/
def joinSep (sep : String) : List String → String
  | [] => ""
  | [x] => x
  | x :: y :: rest => x ++ sep ++ joinSep sep (y :: rest)

/-! ## The regex `\bclass\s+([a-f])\b` of `clustering.py`
(`_separate_terms_by_class`, compiled with `re.IGNORECASE`).
`re.search` semantics: scan positions left to right; the `\s+` is a
maximal whitespace run (backtracking cannot help, since `[a-f]` never
matches whitespace); the captured letter is lowercased by the caller. -/

/-- Try to match `class\s+([a-f])\b` exactly at the head of `cs`
(the leading `\b` is checked by the caller). -/
def classStrictAt (cs : List Char) : Option Char :=
  match eatLit ['c', 'l', 'a', 's', 's'] cs with
  | none => none
  | some rem =>
    match rem with
    | [] => none
    | c :: rest =>
      if isSpaceChar c then
        match rest.dropWhile isSpaceChar with
        | [] => none
        | d :: rest2 =>
          let dl := d.toLower
          if 'a' ≤ dl && dl ≤ 'f' then
            if boundAfter rest2 then some dl else none
          else none
      else none

/-- Scan for the first match of `\bclass\s+([a-f])\b`, threading the
previous character for the leading word boundary. -/
def searchClassStrictGo (prev : Option Char) (cs : List Char) : Option Char :=
  match (if prevOk prev then classStrictAt cs else none) with
  | some d => some d
  | none =>
    match cs with
    | [] => none
    | c :: rest => searchClassStrictGo (some c) rest

/-- `re.search(r'\bclass\s+([a-f])\b', term, re.IGNORECASE)`:
the captured class letter (lowercased) of the first match, if any. -/
def searchClassStrict (s : String) : Option Char :=
  searchClassStrictGo none s.data

/-! ## The regexes `class\s*([a-f])\b` and `tranche\s*([a-f])\b` of
`canonical.py` (no leading `\b`, `\s*` zero or more).  The source always
applies them to already-lowercased text. -/

/-- Match `WORD\s*([a-f])\b` at the head of `cs`. -/
def looseLetterAt (word : List Char) (cs : List Char) : Option Char :=
  match eatLit word cs with
  | none => none
  | some rem =>
    match rem.dropWhile isSpaceChar with
    | [] => none
    | d :: rest2 =>
      let dl := d.toLower
      if 'a' ≤ dl && dl ≤ 'f' then
        if boundAfter rest2 then some dl else none
      else none

/-- Scan for the first match of `WORD\s*([a-f])\b` (no leading boundary). -/
def searchLooseLetterGo (word : List Char) (cs : List Char) : Option Char :=
  match looseLetterAt word cs with
  | some d => some d
  | none =>
    match cs with
    | [] => none
    | _ :: rest => searchLooseLetterGo word rest

/-- `re.search(r'class\s*([a-f])\b', s)`. -/
def searchClassLoose (s : String) : Option Char :=
  searchLooseLetterGo ['c', 'l', 'a', 's', 's'] s.data

/-- `re.search(r'tranche\s*([a-f])\b', s)`. -/
def searchTrancheLoose (s : String) : Option Char :=
  searchLooseLetterGo ['t', 'r', 'a', 'n', 'c', 'h', 'e'] s.data

/-! ## Word-sequence patterns
A pattern of the shape `\bw1\s+w2\s+...\s+wn` with an optional trailing
`\b`; alternations (`(a|b)`), and optional-suffix forms such as `fees?`,
are expanded into a list of alternative word sequences, tried in the
regex's alternation order. -/

/-- Match one word sequence (words separated by `\s+`) at the head of
`cs`; `endB` demands a trailing `\b` after the last word. -/
def eatSeq (endB : Bool) : List String → List Char → Bool
  | [], _ => true
  | [w], cs =>
    match eatLit w.data cs with
    | none => false
    | some rem => if endB then boundAfter rem else true
  | w :: w2 :: ws, cs =>
    match eatLit w.data cs with
    | none => false
    | some rem =>
      match rem with
      | [] => false
      | c :: rest =>
        isSpaceChar c && eatSeq endB (w2 :: ws) (rest.dropWhile isSpaceChar)

/-- Scan for a match of any of the alternative word sequences, with a
leading `\b`. -/
def searchSeqGo (endB : Bool) (alts : List (List String)) (prev : Option Char)
    (cs : List Char) : Bool :=
  (prevOk prev && alts.any (fun ws => eatSeq endB ws cs)) ||
    match cs with
    | [] => false
    | c :: rest => searchSeqGo endB alts (some c) rest

/-- `re.search` for a `\b`-anchored alternation of word sequences with a
trailing `\b` (e.g. `\bcarryover\s+shortfall\b`). -/
def searchSeqBound (alts : List (List String)) (s : String) : Bool :=
  searchSeqGo true alts none s.data

/-- `re.search` for a `\b`-anchored alternation of word sequences without
a trailing `\b` (e.g. `\bservicing\s+fee`). -/
def searchSeqOpen (alts : List (List String)) (s : String) : Bool :=
  searchSeqGo false alts none s.data

/-! ## Single-word alternations with capture, e.g.
`\b(note|certificate|bond|security)\b`: `re.search` returns the leftmost
match; `group(1)` is the matched alternative. -/

/-- Try each alternative word at the head of `cs`, in order; the word must
be followed by `\b`. -/
def matchAltsAt (alts : List String) (cs : List Char) : Option String :=
  match alts with
  | [] => none
  | a :: rest =>
    match eatLit a.data cs with
    | some rem => if boundAfter rem then some a else matchAltsAt rest cs
    | none => matchAltsAt rest cs

/-- Scan for the leftmost `\b`-anchored occurrence of one of the words;
returns the matched word (the regex group). -/
def searchWordAltsGo (alts : List String) (prev : Option Char)
    (cs : List Char) : Option String :=
  match (if prevOk prev then matchAltsAt alts cs else none) with
  | some w => some w
  | none =>
    match cs with
    | [] => none
    | c :: rest => searchWordAltsGo alts (some c) rest

/-- `re.search(r'\b(w1|w2|...)\b', s).group(1)` (or `none`). -/
def searchWordAlts (alts : List String) (s : String) : Option String :=
  searchWordAltsGo alts none s.data

/-! ## `len(re.findall(r'\bWORD\b', s))`
Word-boundary matches of a fixed word cannot overlap, so counting the
positions at which `\bWORD\b` matches equals the number of
(non-overlapping) matches `re.findall` returns. -/

/-- Count the positions at which `\bw\b` matches. -/
def countWordGo (w : List Char) (prev : Option Char) : List Char → Nat
  | [] => 0
  | c :: rest =>
    (if prevOk prev then
       match eatLit w (c :: rest) with
       | some rem => if boundAfter rem then 1 else 0
       | none => 0
     else 0) + countWordGo w (some c) rest

/-- `len(re.findall(r'\bw\b', s))`. -/
def countWord (w : String) (s : String) : Nat :=
  countWordGo w.data none s.data

/-! ## The regex `\bclass\s+[a-f]\s+` of `_create_better_canonical_name`
(trailing whitespace required, letter not captured). -/

/-- Match `class\s+[a-f]\s+` at the head of `cs` (leading `\b` checked by
the caller). -/
def classLetterSpaceAt (cs : List Char) : Bool :=
  match eatLit ['c', 'l', 'a', 's', 's'] cs with
  | none => false
  | some rem =>
    match rem with
    | [] => false
    | c :: rest =>
      isSpaceChar c &&
        match rest.dropWhile isSpaceChar with
        | [] => false
        | d :: rest2 =>
          let dl := d.toLower
          ('a' ≤ dl && dl ≤ 'f') &&
            match rest2 with
            | [] => false
            | e :: _ => isSpaceChar e

/-- Scan for `\bclass\s+[a-f]\s+`. -/
def searchClassLetterSpaceGo (prev : Option Char) (cs : List Char) : Bool :=
  (prevOk prev && classLetterSpaceAt cs) ||
    match cs with
    | [] => false
    | c :: rest => searchClassLetterSpaceGo (some c) rest

/-- `re.search(r'\bclass\s+[a-f]\s+', s)` as a Boolean. -/
def searchClassLetterSpace (s : String) : Bool :=
  searchClassLetterSpaceGo none s.data

/-! ## `clustering.py`: data model -/

/-- One cluster record, as built by `FinancialTermClustering`
(`{'terms': ..., 'count': ..., 'top_features': ..., 'class': ...}`).
The `mean_tfidf_scores` entry (floating-point, produced by the
vectorizer oracle and inspected by no claim) is not modelled.  Records
built on paths that leave the `'class'` key absent are modelled with
`cls := none`. -/
structure ClusterData where
  terms : List String
  count : Nat
  topFeatures : List String
  cls : Option Char
  deriving Repr, DecidableEq

/-- The k-means oracle: given the configured number of clusters and the
term list, `KMeans(...).fit_predict` yields one integer label per term. -/
def LabelerOk (labeler : Nat → List String → List Nat) : Prop :=
  ∀ k ts, (labeler k ts).length = ts.length

/-! ## `clustering.py`: `_separate_terms_by_class`
Builds an insertion-ordered dict `{class_letter: [terms]}` plus the
general list; modelled as an association list preserving first-seen key
order and per-key insertion order, exactly like a Python dict. -/

/-- `class_terms[class_letter].append(term)` with dict-insertion
semantics: append to the existing entry, or add a new key at the end. -/
def insertClassTerm (acc : List (Char × List String)) (c : Char)
    (t : String) : List (Char × List String) :=
  match acc with
  | [] => [(c, [t])]
  | (d, ts) :: rest =>
    if d = c then (d, ts ++ [t]) :: rest else (d, ts) :: insertClassTerm rest c t

/-- The loop of `_separate_terms_by_class`. -/
def sepGo (acc : List (Char × List String)) (gen : List String) :
    List String → List (Char × List String) × List String
  | [] => (acc, gen)
  | t :: rest =>
    match searchClassStrict t with
    | some c => sepGo (insertClassTerm acc c t) gen rest
    | none => sepGo acc (gen ++ [t]) rest

/-- `_separate_terms_by_class(terms)`: class-keyed groups plus the
general list. -/
def separate_terms_by_class (terms : List String) :
    List (Char × List String) × List String :=
  sepGo [] [] terms

/-- Lookup of a class group (empty when the key is absent). -/
def getGroup (c : Char) : List (Char × List String) → List String
  | [] => []
  | (d, ts) :: rest => if d = c then ts else getGroup c rest

/-! ## `clustering.py`: `_cluster_similar_terms` -/

/-- The accumulator loop behind first-occurrence duplicate removal
(a `seen` set plus an ordered list, as in `cluster_terms`). -/
def dedupSeen {α : Type} [DecidableEq α] (acc : List α) : List α → List α
  | [] => acc
  | t :: rest =>
    if t ∈ acc then dedupSeen acc rest else dedupSeen (acc ++ [t]) rest

/-- First-occurrence duplicate removal (the semantics of the `seen`-set
loop of `cluster_terms`, and the distinct-label enumeration used below). -/
def dedupFirst {α : Type} [DecidableEq α] (l : List α) : List α :=
  dedupSeen [] l

/-- Grouping the terms by the k-means labels:
`for cluster_id in set(cluster_labels): [terms[i] for i, l in ... if l == cluster_id]`.
The distinct labels are enumerated in first-occurrence order (CPython
iterates a set of small ints in an implementation-defined order; no claim
depends on the enumeration order). -/
def labelGroups (terms : List String) (labels : List Nat) : List (List String) :=
  (dedupFirst labels).map
    (fun d => ((terms.zip labels).filter (fun p => p.2 = d)).map Prod.fst)

/-- A singleton cluster record (`'class'` key absent). -/
def singletonCluster (t : String) : ClusterData :=
  { terms := [t], count := 1, topFeatures := [t], cls := none }

/-- `_cluster_similar_terms(terms, group_name)`.  The TF-IDF matrix and
k-means are abstracted: `labeler k terms` stands for
`KMeans(n_clusters=k, ...).fit_predict(vectorizer.fit_transform(terms))`
and `feats` for the per-cluster top-feature computation.  This models the
non-raising path of the `try:` block; the `except` fallback produces the
same singleton clusters as the `len(terms) <= 2` shortcut. -/
def cluster_similar_terms (labeler : Nat → List String → List Nat)
    (feats : List String → List String) (groupName : String)
    (terms : List String) : List ClusterData :=
  if terms.length ≤ 2 then
    terms.map singletonCluster
  else
    let nClusters :=
      if strStartsWith groupName "class_" then
        min terms.length (max 2 (terms.length / 2))
      else
        min terms.length (max 2 (terms.length / 3))
    let labels := labeler nClusters terms
    (labelGroups terms labels).map
      (fun g => { terms := g, count := g.length, topFeatures := feats g,
                  cls := none })

/-! ## `clustering.py`: `_class_aware_clustering` -/

/-- The per-class body of the loop of `_class_aware_clustering`: a
one-term group becomes a singleton cluster with its `'class'` key set;
larger groups are clustered and each record tagged with the class. -/
def classGroupClusters (labeler : Nat → List String → List Nat)
    (feats : List String → List String) (c : Char) :
    List String → List ClusterData
  | [t] => [{ terms := [t], count := 1, topFeatures := [t], cls := some c }]
  | ts =>
    (cluster_similar_terms labeler feats ("class_" ++ c.toString) ts).map
      (fun cd => { cd with cls := some c })

/-- `_class_aware_clustering(class_terms, general_terms)`: class groups
processed in dict order (singleton shortcut for one-term groups, with
`'class'` set), then the general group; ids assigned sequentially from 0. -/
def class_aware_clustering (labeler : Nat → List String → List Nat)
    (feats : List String → List String)
    (classTerms : List (Char × List String)) (generalTerms : List String) :
    List (Nat × ClusterData) :=
  let classClusters :=
    classTerms.flatMap (fun p => classGroupClusters labeler feats p.1 p.2)
  let generalClusters :=
    if generalTerms.isEmpty then []
    else
      (cluster_similar_terms labeler feats "general" generalTerms).map
        (fun cd => { cd with cls := none })
  (classClusters ++ generalClusters).enum

/-! ## `clustering.py`: `cluster_terms` -/

/-- `cluster_terms(terms)`, returning the `"clusters"` component (the id
→ record mapping, as an ordered association list).  The `metrics`,
`vectorizer` and `optimal_k` components are derived values inspected by
no claim. -/
def cluster_terms (labeler : Nat → List String → List Nat)
    (feats : List String → List String) (terms : List String) :
    List (Nat × ClusterData) :=
  if terms.length < 2 then []
  else
    let uniqueTerms := dedupFirst terms
    if uniqueTerms.length ≤ 3 then
      uniqueTerms.enum.map (fun p => (p.1, singletonCluster p.2))
    else
      let sep := separate_terms_by_class uniqueTerms
      class_aware_clustering labeler feats sep.1 sep.2

/-- All member terms of all clusters, in cluster order. -/
def allClusterTerms (clusters : List (Nat × ClusterData)) : List String :=
  clusters.flatMap (fun p => p.2.terms)

/-! ## The specification's notion of a structural identifier (§4.1)
This definition follows the SPEC'S WORDS, not the source, and exists only
to compare the two: "a single letter, case-insensitive, matched as a
standalone word immediately following the literal word `class` or
`tranche`", with word-boundary semantics — i.e. the regex
`\b(class|tranche)\s+([a-z])\b`, case-insensitive. -/

/-- Match `WORD\s+([a-z])\b` at the head of `cs`. -/
def specWordLetterAt (word : List Char) (cs : List Char) : Option Char :=
  match eatLit word cs with
  | none => none
  | some rem =>
    match rem with
    | [] => none
    | c :: rest =>
      if isSpaceChar c then
        match rest.dropWhile isSpaceChar with
        | [] => none
        | d :: rest2 =>
          let dl := d.toLower
          if 'a' ≤ dl && dl ≤ 'z' then
            if boundAfter rest2 then some dl else none
          else none
      else none

/-- Scan for `\b(class|tranche)\s+([a-z])\b` (case-insensitive); the
captured letter, lowercased. -/
def specStructuralIdentifierGo (prev : Option Char) (cs : List Char) :
    Option Char :=
  match (if prevOk prev then
           match specWordLetterAt ['c', 'l', 'a', 's', 's'] cs with
           | some d => some d
           | none => specWordLetterAt ['t', 'r', 'a', 'n', 'c', 'h', 'e'] cs
         else none) with
  | some d => some d
  | none =>
    match cs with
    | [] => none
    | c :: rest => specStructuralIdentifierGo (some c) rest

/-- The structural identifier of a term according to the specification's
contract for the partitioner (spec §4.1). -/
def specStructuralIdentifier (s : String) : Option Char :=
  specStructuralIdentifierGo none s.data

/-! ## `canonical.py`: `CanonicalNameGenerator` -/

/-- `self.junk_canonical_names` (constructor of `CanonicalNameGenerator`). -/
def junkSet : List String :=
  ["net", "total", "gross", "current", "aggregate", "outstanding",
   "available", "required", "applicable", "eligible", "related",
   "amount", "amounts", "value", "values", "sum", "sums",
   "beginning", "ending", "period", "date", "time",
   "start", "end", "initial", "final", "opening", "closing",
   "other", "additional", "miscellaneous", "various", "general",
   "standard", "regular", "normal", "special", "extra",
   "a", "b", "c", "d", "e", "f", "i", "ii", "iii"]

/-- The `always_junk` set of `_is_junk_canonical_name`. -/
def alwaysJunk : List String :=
  ["net", "total", "gross", "current", "amount", "value", "sum",
   "beginning", "ending", "period", "date", "time", "other", "additional",
   "a", "b", "c", "d", "e", "f", "i", "ii", "iii"]

/-- The `meaningful_single_terms` set of `_is_junk_canonical_name`. -/
def meaningfulSingleTerms : List String :=
  ["interest", "principal", "balance", "fee", "payment",
   "income", "expense", "cost", "rate", "factor", "account",
   "fund", "pool", "reserve", "trust", "servicing", "trustee"]

/-- The `very_generic` set of `_is_junk_canonical_name`. -/
def veryGeneric : List String :=
  ["amount", "total", "net", "gross", "current", "value", "sum",
   "beginning", "ending", "period", "date", "time"]

/-- `_is_junk_canonical_name(canonical_name)`.  The float comparison
`len(non_junk_parts) < len(parts) * 0.3` is modelled as
`10 * non_junk < 3 * parts`, which agrees with the IEEE-double comparison
for all integer operand values. -/
def is_junk_canonical_name (name : String) : Bool :=
  if name = "" || name = "unknown_cluster" then true
  else
    let parts := splitUnderscore name
    if parts.any (fun p => strStartsWith p "class_") then false
    else if parts.any (fun p => strStartsWith p "tranche_") then false
    else if parts.length = 1 && alwaysJunk.contains (parts.headD "") then true
    else if parts.length = 1 && meaningfulSingleTerms.contains (parts.headD "") then
      false
    else if parts.all (fun p => veryGeneric.contains p) then true
    else if 10 * (parts.filter (fun p => !junkSet.contains p)).length <
        3 * parts.length then true
    else false

/-- Collapse runs of underscores to a single underscore
(`re.sub(r'_+', '_', ...)`). -/
def collapseUnderscores : List Char → List Char
  | [] => []
  | [c] => [c]
  | c :: d :: rest =>
    if c = '_' && d = '_' then collapseUnderscores (d :: rest)
    else c :: collapseUnderscores (d :: rest)

/-- Python `.strip('_')`. -/
def stripUnderscores (cs : List Char) : List Char :=
  ((cs.dropWhile (fun c => c = '_')).reverse.dropWhile (fun c => c = '_')).reverse

/-- `_clean_canonical_name(term)`: lowercase, spaces to underscores, drop
non-word characters, collapse underscore runs, strip edge underscores. -/
def clean_canonical_name (term : String) : String :=
  let s1 := spacesToUnderscores (strToLower term)
  let s2 := s1.data.filter isWordCharB
  String.mk (stripUnderscores (collapseUnderscores s2))

/-- The `financial_keywords` list of `_select_best_term`. -/
def financialKeywords : List String :=
  ["class", "interest", "balance", "fee", "payment", "amount", "account",
   "date"]

/-- The per-term score of `_select_best_term`. -/
def scoreTerm (term : String) : Int :=
  let base : Int := max 0 (50 - (term.length : Int))
  let kw : Int :=
    20 * ((financialKeywords.filter (fun k => strContains (strToLower term) k)).length : Int)
  let lenPen : Int := if term.length > 80 then -30 else 0
  let wc := (pySplit term).length
  let wcPen : Int := if wc > 8 then -(3 * (wc : Int)) else 0
  base + kw + lenPen + wcPen

/-- `_select_best_term(terms)`: the first term attaining the maximal
score (Python `max(dict, key=...)` returns the first maximal key). -/
def select_best_term (terms : List String) : String :=
  match terms with
  | [] => ""
  | t :: rest =>
    rest.foldl (fun best u => if scoreTerm u > scoreTerm best then u else best) t

/-- Increment an insertion-ordered association-list counter
(Python dict `d[k] = d.get(k, 0) + 1`). -/
def bumpCount {α : Type} [DecidableEq α] (acc : List (α × Nat)) (w : α) :
    List (α × Nat) :=
  match acc with
  | [] => [(w, 1)]
  | (v, n) :: rest =>
    if v = w then (v, n + 1) :: rest else (v, n) :: bumpCount rest w

/-- The `word_counts` dict of `_find_common_words`. -/
def wordCounts (terms : List String) : List (String × Nat) :=
  terms.foldl
    (fun acc t =>
      ((pySplit (strToLower t)).filter (fun w => w.length > 2)).foldl bumpCount acc)
    []

/-- Stable insertion (descending by second component): the element is
placed before the first entry with a key not larger than its own. -/
def insertSndDesc {α β : Type} [LinearOrder β] (x : α × β) :
    List (α × β) → List (α × β)
  | [] => [x]
  | y :: ys => if y.2 ≤ x.2 then x :: y :: ys else y :: insertSndDesc x ys

/-- Stable sort, descending by second component (the semantics of Python's
stable `sorted(..., reverse=True)` / `sort(key=..., reverse=True)`). -/
def sortSndDesc {α β : Type} [LinearOrder β] : List (α × β) → List (α × β)
  | [] => []
  | x :: xs => insertSndDesc x (sortSndDesc xs)

/-- `_find_common_words(terms)`: words of more than 2 characters occurring
in at least `max(1, len(terms) * 0.3)` term-words, sorted by count
descending (stable).  The float threshold comparison
`count >= max(1, n * 0.3)` is modelled as `count ≥ 1 ∧ 10·count ≥ 3·n`,
which agrees with the IEEE-double comparison for all integer counts. -/
def find_common_words (terms : List String) : List String :=
  let counts := wordCounts terms
  let common :=
    counts.filter (fun wc => wc.2 ≥ 1 && 10 * wc.2 ≥ 3 * terms.length)
  (sortSndDesc common).map Prod.fst

/-! ## `canonical.py`: `_extract_concept_components` -/

/-- The component record of `_extract_concept_components`.  The early
`direct_financial_term` return is modelled by the `direct` field (set
exactly when the source returns the single-key dict). -/
structure Components where
  direct : Option String
  cls : Option Char
  tranche : Option Char
  instrument : Option String
  action : Option String
  concept : Option String
  temporal : Option String
  amountType : Option String
  deriving Repr, DecidableEq

/-- The all-`None` component dict. -/
def emptyComponents : Components :=
  { direct := none, cls := none, tranche := none, instrument := none,
    action := none, concept := none, temporal := none, amountType := none }

/-- `direct_financial_patterns`: each regex expanded into its alternative
word sequences (all are `\b`-delimited on both sides). -/
def directFinancialPatterns : List (List (List String) × String) :=
  [([["backup", "servicing", "fee"]], "backup_servicing_fee"),
   ([["backup", "servicer", "fee"]], "backup_servicer_fee"),
   ([["servicing", "fee"]], "servicing_fee"),
   ([["servicing", "fees"]], "servicing_fees"),
   ([["backup", "trustee", "fee"]], "backup_trustee_fee"),
   ([["trustee", "fees"], ["trustee", "fee"]], "trustee_fees"),
   ([["indenture", "trustee", "fee"]], "indenture_trustee_fee"),
   ([["owner", "trustee", "fee"]], "owner_trustee_fee"),
   ([["available", "funds"]], "available_funds"),
   ([["reserve", "fund"]], "reserve_fund"),
   ([["pool", "factor"]], "pool_factor"),
   ([["overcollateralization"]], "overcollateralization")]

/-- The first matching direct financial pattern's canonical name. -/
def findDirectFinancialTerm (allText : String) : Option String :=
  match directFinancialPatterns.find? (fun p => searchSeqBound p.1 allText) with
  | some p => some p.2
  | none => none

/-- `amount_type_patterns` (all `\b`-delimited on both sides); the first
matching pattern wins. -/
def amountTypePatterns : List (List (List String) × String) :=
  [([["carryover", "shortfall"]], "carryover_shortfall"),
   ([["interest", "carryover", "shortfall"]], "interest_carryover_shortfall"),
   ([["principal", "carryover", "shortfall"]], "principal_carryover_shortfall"),
   ([["interest", "distributable", "amount"]], "interest_distributable_amount"),
   ([["principal", "distributable", "amount"]], "principal_distributable_amount"),
   ([["distributable", "amount"]], "distributable_amount"),
   ([["shortfall"]], "shortfall"),
   ([["distribution"]], "distribution"),
   ([["deficiency"]], "deficiency"),
   ([["required", "amount"]], "required_amount"),
   ([["payment", "amount"]], "payment_amount"),
   ([["collection", "amount"]], "collection_amount")]

/-- `action_patterns` of `_extract_concept_components`: single-word
alternations with an optional replacement value. -/
def actionPatterns : List (List String × Option String) :=
  [(["payment", "collection", "allocation"], none),
   (["purchase", "sale", "transfer", "exchange"], none),
   (["accrual", "accrue", "accrued"], some "accrued"),
   (["outstanding", "aggregate", "available", "required"], none)]

/-- `concept_patterns` of `_extract_concept_components`. -/
def conceptPatterns : List (List String × Option String) :=
  [(["balance", "amount", "value", "total", "sum"], none),
   (["rate", "factor", "percentage", "ratio"], none),
   (["fee", "expense", "cost", "charge"], none),
   (["income", "revenue", "yield", "return"], none),
   (["account", "reserve", "fund", "pool"], none)]

/-- `temporal_patterns` of `_extract_concept_components`. -/
def temporalPatterns : List (List String × Option String) :=
  [(["beginning", "start", "initial", "opening"], some "beginning"),
   (["ending", "end", "final", "closing", "close"], some "ending"),
   (["current", "present", "today"], some "current"),
   (["previous", "prior", "last"], some "previous"),
   (["period", "date", "time", "term"], none)]

/-- The shared loop shape
`for pattern, replacement in ...: if match and not components[k]:
components[k] = replacement or match.group(1)`: the first pattern (in
list order) that matches anywhere decides the value. -/
def firstPatternValue (pats : List (List String × Option String))
    (allText : String) : Option String :=
  match pats with
  | [] => none
  | (alts, repl) :: rest =>
    match searchWordAlts alts allText with
    | some w => some (repl.getD w)
    | none => firstPatternValue rest allText

/-- The first key (in insertion order) attaining the maximal count:
Python `max(dict, key=dict.get)`. -/
def firstMaxKey {α : Type} : List (α × Nat) → Option α
  | [] => none
  | x :: xs => some ((xs.foldl (fun b y => if y.2 > b.2 then y else b) x).1)

/-- The principal/interest dominance decision of
`_extract_concept_components` (lines 327-346 of `canonical.py`):
compare total `\bprincipal\b` / `\binterest\b` occurrence counts in the
aggregate text; on a (positive) tie compare the number of member terms
containing each word as a substring; abstain when still tied. -/
def dominantInstrument (terms : List String) (allText : String) :
    Option String :=
  let pCount := countWord "principal" allText
  let iCount := countWord "interest" allText
  if pCount > iCount then some "principal"
  else if iCount > pCount then some "interest"
  else if pCount > 0 && iCount > 0 then
    let pTerms := (terms.filter (fun t => strContains (strToLower t) "principal")).length
    let iTerms := (terms.filter (fun t => strContains (strToLower t) "interest")).length
    if pTerms > iTerms then some "principal"
    else if iTerms > pTerms then some "interest"
    else none
  else none

/-- The full instrument extraction (lines 327-358): when no
principal/interest dominance is found, the first
`\b(note|certificate|bond|security)\b` occurrence fills the field. -/
def extractInstrument (terms : List String) (allText : String) :
    Option String :=
  match dominantInstrument terms allText with
  | some s => some s
  | none => searchWordAlts ["note", "certificate", "bond", "security"] allText

/-- The part of `_extract_concept_components` after the
direct-financial-term early return (lines 274-401 of `canonical.py`). -/
def extractComponentsCore (terms : List String) : Components :=
  let allText := strToLower (joinSep " " terms)
  let classLetters := dedupFirst (terms.filterMap (fun t => searchClassLoose (strToLower t)))
  let cls : Option Char :=
    if classLetters.length = 1 then classLetters.headD 'a'
    else if classLetters.length > 1 then
      firstMaxKey
        ((terms.filterMap (fun t => searchClassLoose (strToLower t))).foldl bumpCount [])
    else none
  let trancheLetters :=
    dedupFirst (terms.filterMap (fun t => searchTrancheLoose (strToLower t)))
  let tranche : Option Char :=
    if trancheLetters.length = 1 then trancheLetters.headD 'a' else none
  let amountType : Option String :=
    match amountTypePatterns.find? (fun p => searchSeqBound p.1 allText) with
    | some p => some p.2
    | none => none
  { direct := none, cls := cls, tranche := tranche,
    instrument := extractInstrument terms allText,
    action := firstPatternValue actionPatterns allText,
    concept := firstPatternValue conceptPatterns allText,
    temporal := firstPatternValue temporalPatterns allText,
    amountType := amountType }

/-- `_extract_concept_components(terms)`. -/
def extract_concept_components (terms : List String) : Components :=
  let allText := strToLower (joinSep " " terms)
  match findDirectFinancialTerm allText with
  | some n => { emptyComponents with direct := some n }
  | none => extractComponentsCore terms

/-! ## `canonical.py`: `_build_from_common_words` -/

/-- The `word_priorities` table (the Python dict literal lists the key
`'fee'` twice, both times with value 110; a dict keeps a single entry). -/
def wordPriorities : List (String × Int) :=
  [("servicing", 120), ("backup", 115), ("trustee", 115), ("indenture", 115),
   ("fee", 110), ("fees", 110), ("expense", 105), ("expenses", 105),
   ("cost", 105),
   ("class", 100), ("tranche", 95), ("series", 90),
   ("servicer", 100), ("dealer", 95), ("owner", 95),
   ("note", 85), ("certificate", 85), ("bond", 85), ("security", 85),
   ("principal", 80), ("interest", 80),
   ("distribution", 75), ("payment", 75), ("collection", 75),
   ("accrued", 70), ("outstanding", 70), ("available", 70),
   ("balance", 65), ("amount", 40), ("account", 65),
   ("rate", 60), ("income", 60), ("reserve", 80),
   ("beginning", 45), ("ending", 45), ("current", 45), ("period", 35),
   ("date", 35),
   ("aggregate", 40), ("total", 40), ("net", 50), ("gross", 50),
   ("required", 45), ("eligible", 45), ("applicable", 45)]

/-- Priority lookup. -/
def lookupPriority (w : String) : Option Int :=
  match wordPriorities.find? (fun p => p.1 == w) with
  | some p => some p.2
  | none => none

/-- The `scored_words` list: table words keep their priority; other words
longer than 3 characters score 30; the rest are dropped. -/
def scoredWords (commonWords : List String) : List (String × Int) :=
  commonWords.filterMap (fun w =>
    match lookupPriority w with
    | some s => some (w, s)
    | none => if w.length > 3 then some (w, 30) else none)

/-- First selection loop: every word scoring at least 110, in sorted
order (no length cap). -/
def selectHigh (sorted : List (String × Int)) : List String :=
  sorted.foldl (fun sel p => if p.2 ≥ 110 then sel ++ [p.1] else sel) []

/-- Second and third selection loops: words with score in `[lo, hi)`, not
yet selected, until four words are selected. -/
def selectRange (lo hi : Int) (sorted : List (String × Int))
    (sel0 : List String) : List String :=
  sorted.foldl
    (fun sel p =>
      if sel.length ≥ 4 then sel
      else if lo ≤ p.2 && p.2 < hi && !sel.contains p.1 then sel ++ [p.1]
      else sel)
    sel0

/-- The complete selection of `_build_from_common_words`. -/
def selectWords (sorted : List (String × Int)) : List String :=
  selectRange 40 60 sorted (selectRange 60 110 sorted (selectHigh sorted))

/-- `_build_from_common_words(common_words, terms)`. -/
def build_from_common_words (commonWords : List String)
    (terms : List String) : String :=
  if commonWords.isEmpty then select_best_term terms
  else
    let sorted := sortSndDesc (scoredWords commonWords)
    let selected := selectWords sorted
    if selected.isEmpty then select_best_term terms
    else joinSep "_" selected

/-! ## `canonical.py`: `_identify_core_concept` and
`_generate_single_canonical_name` -/

/-- Wrap an optional component as a name-part list. -/
def optPart : Option String → List String
  | some s => [s]
  | none => []

/-- `_identify_core_concept(terms, common_words)`. -/
def identify_core_concept (terms : List String) (commonWords : List String) :
    String :=
  let comps := extract_concept_components terms
  match comps.direct with
  | some n => n
  | none =>
    let idPart : List String :=
      match comps.cls with
      | some c => ["class_" ++ c.toString]
      | none =>
        match comps.tranche with
        | some c => ["tranche_" ++ c.toString]
        | none => []
    let canonicalParts :=
      idPart ++ optPart comps.instrument ++ optPart comps.amountType ++
        optPart comps.action ++ optPart comps.concept ++ optPart comps.temporal
    if canonicalParts.isEmpty then build_from_common_words commonWords terms
    else joinSep "_" canonicalParts

/-- `_generate_single_canonical_name(terms)`. -/
def generate_single_canonical_name (terms : List String) : String :=
  if terms.isEmpty then "unknown_cluster"
  else
    let commonWords := find_common_words terms
    let name := identify_core_concept terms commonWords
    let name2 :=
      if name = "" || name.length > 50 then select_best_term terms else name
    clean_canonical_name name2

/-! ## `canonical.py`: `_create_better_canonical_name` -/

/-- `specific_patterns` of `_create_better_canonical_name` (all regexes
without a trailing `\b`); the final `\bclass\s+[a-f]\s+` pattern is
handled separately. -/
def betterSpecificPatterns : List (List (List String) × String) :=
  [([["servicing", "fee"], ["backup", "fee"], ["trustee", "fee"],
     ["owner", "fee"]], "specific_fee"),
   ([["investment", "earnings"], ["interest", "earnings"]], "earnings"),
   ([["reserve", "fund"], ["trust", "fund"]], "fund_account"),
   ([["pool", "balance"], ["aggregate", "balance"]], "pool_balance"),
   ([["advance", "rate"], ["overcollateralization", "rate"]], "advance_rate"),
   ([["distribution", "date"], ["payment", "date"]], "payment_date"),
   ([["beginning", "period"], ["ending", "period"]], "period_boundary")]

/-- The first matching specific pattern of
`_create_better_canonical_name` (the `class\s+[a-f]\s+` pattern is the
last entry of the Python list). -/
def findBetterPattern (allText : String) : Option String :=
  match betterSpecificPatterns.find? (fun p => searchSeqOpen p.1 allText) with
  | some p => some p.2
  | none =>
    if searchClassLetterSpace allText then some "class_specific" else none

/-- `_create_better_canonical_name(terms, original_name)`. -/
def create_better_canonical_name (terms : List String)
    (originalName : String) : String :=
  let allText := strToLower (joinSep " " terms)
  match findBetterPattern allText with
  | some n => n
  | none =>
    if terms.length = 1 && junkSet.contains (pyStrip (strToLower (terms.headD "")))
    then "excluded_generic_" ++ spacesToUnderscores (strToLower (terms.headD ""))
    else
      let meaningful := terms.filter (fun t => (pySplit (strToLower t)).length > 1)
      match meaningful with
      | [] => "low_priority_" ++ originalName
      | m :: ms =>
        clean_canonical_name
          (ms.foldl (fun best u => if u.length < best.length then u else best) m)

/-! ## `canonical.py`: `_ensure_essential_financial_terms` -/

/-- `essential_patterns` (each regex has no trailing `\b`). -/
def essentialPatterns : List (String × List (List String)) :=
  [("servicing_fee", [["servicing", "fee"], ["servicing", "fees"]]),
   ("trustee_fee", [["trustee", "fee"], ["indenture", "trustee"],
                    ["owner", "trustee"]]),
   ("available_funds", [["available", "funds"], ["total", "available"]]),
   ("reserve_fund", [["reserve", "fund"], ["cash", "reserve"]]),
   ("pool_factor", [["pool", "factor"], ["factor"]]),
   ("overcollateralization", [["overcollateralization"], ["oc", "test"]]),
   ("waterfall", [["waterfall"], ["priority", "of", "payments"]])]

/-- The names that the essential pass may overwrite
(`startswith('excluded_') or startswith('low_priority_') or in junk set`). -/
def isOverridableName (name : String) : Bool :=
  strStartsWith name "excluded_" || strStartsWith name "low_priority_" ||
    junkSet.contains name

/-- The skip condition of the essential pass (a `class_`-prefixed name
cannot also start with `excluded_` or `low_priority_`, but the source
spells out all three tests). -/
def skipsEssential (name : String) : Bool :=
  strStartsWith name "class_" && !strStartsWith name "excluded_" &&
    !strStartsWith name "low_priority_"

/-- The override name: prefixed with the class letter when
`class\s*([a-f])\b` matches the cluster's aggregate text. -/
def enhanceEssentialName (p : String) (allText : String) : String :=
  match searchClassLoose allText with
  | some c => "class_" ++ c.toString ++ "_" ++ p
  | none => p

/-- Association-list lookup by cluster id. -/
def lookupName : List (Nat × String) → Nat → Option String
  | [], _ => none
  | (k, v) :: rest, id0 => if k = id0 then some v else lookupName rest id0

/-- Association-list update by cluster id (Python dict assignment; the
ids written by this pass are always present). -/
def updateAssoc (l : List (Nat × String)) (k : Nat) (v : String) :
    List (Nat × String) :=
  l.map (fun p => if p.1 = k then (k, v) else p)

/-- The inner pattern loop of the essential pass for one cluster.  State:
the pending override name (the source writes the dict immediately; the
last write wins), the global `found_patterns` set, and — as a ghost
component used only by the theorems below — the list of patterns that
actually overwrote this cluster's name.  The original name is read once
before the loop, so the junkiness test always refers to it. -/
def essPatternsGo (allText : String) (origJunky : Bool) :
    List (String × List (List String)) →
      Option String × List String × List String →
      Option String × List String × List String
  | [], st => st
  | (p, rs) :: rest, (cur, found, fired) =>
    if p ∈ found then essPatternsGo allText origJunky rest (cur, found, fired)
    else if rs.any (fun ws => searchSeqOpen [ws] allText) then
      essPatternsGo allText origJunky rest
        (if origJunky then (some (enhanceEssentialName p allText), found ++ [p], fired ++ [p])
         else (cur, found ++ [p], fired))
    else essPatternsGo allText origJunky rest (cur, found, fired)

/-- One cluster step of the essential pass (returns the updated names,
the updated `found_patterns`, and the ghost overwrite log).  The
original name is read once before the pattern loop; the dict write of
the source happens at each firing and the last write wins, which is the
pending-override component of `essPatternsGo`. -/
def essClusterStep (names : List (Nat × String)) (found : List String)
    (log : List (Nat × String)) (id0 : Nat) (cd : ClusterData) :
    List (Nat × String) × List String × List (Nat × String) :=
  if skipsEssential ((lookupName names id0).getD "") then (names, found, log)
  else
    match essPatternsGo (strToLower (joinSep " " cd.terms))
        (isOverridableName ((lookupName names id0).getD ""))
        essentialPatterns (none, found, []) with
    | (some n, found2, fired) =>
      (updateAssoc names id0 n, found2, log ++ fired.map (fun p => (id0, p)))
    | (none, found2, fired) =>
      (names, found2, log ++ fired.map (fun p => (id0, p)))

/-- The cluster loop of the essential pass (a fold over the clusters in
dict order, threading the names, the `found_patterns` set and the ghost
overwrite log). -/
def essScanGo : List (Nat × ClusterData) →
    List (Nat × String) × List String × List (Nat × String) →
      List (Nat × String) × List String × List (Nat × String)
  | [], st => st
  | (id0, cd) :: rest, st =>
    essScanGo rest (essClusterStep st.1 st.2.1 st.2.2 id0 cd)

/-- The full essential pass with its ghost overwrite log. -/
def ensureEssentialScan (clusters : List (Nat × ClusterData))
    (names : List (Nat × String)) :
    List (Nat × String) × List String × List (Nat × String) :=
  essScanGo clusters (names, [], [])

/-- `_ensure_essential_financial_terms(clusters, canonical_names)`. -/
def ensure_essential_financial_terms (clusters : List (Nat × ClusterData))
    (names : List (Nat × String)) : List (Nat × String) :=
  (ensureEssentialScan clusters names).1

/-- The per-cluster naming of `generate_canonical_names` before the
essential pass. -/
def nameOneCluster (terms : List String) : String :=
  let n := generate_single_canonical_name terms
  if is_junk_canonical_name n then create_better_canonical_name terms n else n

/-- The names dict built by the loop of `generate_canonical_names`. -/
def initialCanonicalNames (clusters : List (Nat × ClusterData)) :
    List (Nat × String) :=
  clusters.map (fun p => (p.1, nameOneCluster p.2.terms))

/-- `generate_canonical_names(clusters)`. -/
def generate_canonical_names (clusters : List (Nat × ClusterData)) :
    List (Nat × String) :=
  ensure_essential_financial_terms clusters (initialCanonicalNames clusters)

/-! ## `fuzzy_matcher.py`: `FuzzyMatcher` -/

/-- One mapping record of `create_mappings`.  `fuzz.WRatio` returns a
float in `[0, 100]`; the similarity is abstracted by the `wratioFn`
oracle and scores are modelled as integers — every comparison the source
performs on a score (`>= threshold`, `>= 95`, `>= 85`, `min` with the
integer caps and bonuses) is order-theoretic and is preserved by the
embedding; no claim depends on fractional score values. -/
structure Mapping where
  originalTerm : String
  canonicalName : String
  clusterId : Nat
  fuzzyScore : Int
  fuzzyMatch : String
  confidence : String
  deriving Repr, DecidableEq

/-- `_calculate_term_confidence(term, canonical_name, cluster_data)`,
with `fuzz.WRatio` abstracted as `wratioFn`. -/
def calculate_term_confidence (wratioFn : String → String → Int)
    (term canonicalName : String) (cd : ClusterData) : Int :=
  let direct0 := wratioFn (strToLower term) (strToLower canonicalName)
  let canonicalWords := dedupFirst (splitUnderscore canonicalName)
  let termWords := dedupFirst (pySplit (strToLower term))
  let wordOverlap :=
    (canonicalWords.filter (fun w => termWords.contains w)).length
  let direct1 :=
    if wordOverlap > 0 then
      min 100 (direct0 + min 20 ((wordOverlap : Int) * 10))
    else direct0
  let direct2 :=
    if strContains (strToLower term) (replaceChar '_' ' ' canonicalName) then
      min 100 (direct1 + 15)
    else direct1
  if cd.count > 3 &&
      (pySplit (strToLower term)).any (fun w => cd.topFeatures.contains w) then
    min 100 (direct2 + 10)
  else direct2

/-- `_calculate_confidence_level(score)`. -/
def calculate_confidence_level (threshold : Int) (score : Int) : String :=
  if score ≥ 95 then "very_high"
  else if score ≥ 85 then "high"
  else if score ≥ threshold then "medium"
  else "low"

/-- The loop body of `create_mappings` for one `(term, cluster)` pair:
the mapping record when the confidence meets the threshold, `none`
otherwise (the source then only logs the exclusion). -/
def mappingFor (wratioFn : String → String → Int) (threshold : Int)
    (id0 : Nat) (cd : ClusterData) (cn : String) (term : String) :
    Option Mapping :=
  let score := calculate_term_confidence wratioFn term cn cd
  if score ≥ threshold then
    some { originalTerm := term, canonicalName := cn, clusterId := id0,
           fuzzyScore := score, fuzzyMatch := cn,
           confidence := calculate_confidence_level threshold score }
  else none

/-- `create_mappings(clusters, canonical_names)`; mappings below the
configured threshold are only logged, not emitted. -/
def create_mappings (wratioFn : String → String → Int) (threshold : Int)
    (clusters : List (Nat × ClusterData)) (names : List (Nat × String)) :
    List Mapping :=
  clusters.flatMap (fun p =>
    p.2.terms.filterMap
      (mappingFor wratioFn threshold p.1 p.2 ((lookupName names p.1).getD "")))

/-! ## Property vocabulary -/

/-- A character allowed in a canonical name by the spec's shape property
(`[a-z0-9_]`). -/
def lowerShapeChar (c : Char) : Bool :=
  ('a' ≤ c && c ≤ 'z') || ('0' ≤ c && c ≤ '9') || c = '_'

/-- No two adjacent underscores. -/
def noDoubleUnderscore : List Char → Bool
  | [] => true
  | [_] => true
  | c :: d :: rest => !(c = '_' && d = '_') && noDoubleUnderscore (d :: rest)

/-- The spec's canonical-name shape on character lists: non-empty, all
characters in `[a-z0-9_]`, no leading underscore, no trailing
underscore, no underscore run. -/
def goodShapeL (cs : List Char) : Bool :=
  match cs with
  | [] => false
  | c :: _ =>
    c ≠ '_' && cs.getLastD '_' ≠ '_' && cs.all lowerShapeChar &&
      noDoubleUnderscore cs

/-- The spec's canonical-name shape property (§8, "canonical name
non-emptiness"): a non-empty string matching `[a-z0-9_]+` with no
leading, trailing or duplicate underscores. -/
def goodShape (s : String) : Bool :=
  goodShapeL s.data

/-- The term contains at least one ASCII alphanumeric character. -/
def hasAlnum (s : String) : Bool :=
  s.data.any (fun c => c.isAlphanum)

/-- A term with no leading or trailing whitespace. -/
def trimFree (s : String) : Bool :=
  pyStrip s = s

/-- A legitimate essential-pass overwrite of cluster `k`'s name (used to
characterize the pass): some essential pattern matches the aggregate
member text of `k`'s cluster record, `k`'s original name was
overridable, and the new name is that pattern's canonical essential name
with the structural-identifier prefix applied. -/
def essentialOverride (clusters : List (Nat × ClusterData))
    (names : List (Nat × String)) (k : Nat) (nms : List (Nat × String)) :
    Prop :=
  ∃ cd p rs, (k, cd) ∈ clusters ∧ (p, rs) ∈ essentialPatterns ∧
    rs.any (fun ws => searchSeqOpen [ws] (strToLower (joinSep " " cd.terms))) =
      true ∧
    isOverridableName ((lookupName names k).getD "") = true ∧
    lookupName nms k =
      some (enhanceEssentialName p (strToLower (joinSep " " cd.terms)))

/-- A concrete k-means oracle used by witnesses: each term its own label. -/
def rangeLabeler : Nat → List String → List Nat :=
  fun _ ts => List.range ts.length

/-- A concrete feature oracle used by witnesses. -/
def idFeats : List String → List String :=
  fun g => g

/-! # Theorems

## Partitioner characterization (claim C2) -/

theorem getGroup_insert (acc : List (Char × List String)) (c d : Char)
    (t : String) :
    getGroup c (insertClassTerm acc d t) =
      if d = c then getGroup c acc ++ [t] else getGroup c acc := by
  induction acc with
  | nil =>
    by_cases h : d = c <;> simp [insertClassTerm, getGroup, h]
  | cons hd tl ih =>
    obtain ⟨e, ts⟩ := hd
    simp only [insertClassTerm]
    by_cases he : e = d
    · subst he
      by_cases hc : e = c <;> simp [getGroup, hc]
    · by_cases hc : e = c
      · subst hc
        have hd : ¬ d = e := fun h => he h.symm
        simp [getGroup, he, hd]
      · simp [getGroup, he, hc, ih]

theorem sepGo_snd (ts : List String) :
    ∀ acc gen, (sepGo acc gen ts).2 =
      gen ++ ts.filter (fun t => (searchClassStrict t).isNone) := by
  induction ts with
  | nil => intro acc gen; simp [sepGo]
  | cons t rest ih =>
    intro acc gen
    simp only [sepGo]
    cases h : searchClassStrict t with
    | some c => simp [h, ih, List.filter_cons]
    | none => simp [h, ih, List.filter_cons]

theorem sepGo_groups (ts : List String) :
    ∀ acc gen c, getGroup c (sepGo acc gen ts).1 =
      getGroup c acc ++ ts.filter (fun t => searchClassStrict t = some c) := by
  induction ts with
  | nil => intro acc gen c; simp [sepGo]
  | cons t rest ih =>
    intro acc gen c
    simp only [sepGo]
    cases h : searchClassStrict t with
    | some d =>
      rw [ih, getGroup_insert]
      by_cases hdc : d = c
      · subst hdc
        simp [h, List.filter_cons]
      · have : ¬ searchClassStrict t = some c := by
          rw [h]; exact fun hh => hdc (Option.some.inj hh)
        simp [List.filter_cons, this, hdc]
    | none =>
      rw [ih]
      have : ¬ searchClassStrict t = some c := by rw [h]; exact fun hh => nomatch hh
      simp [List.filter_cons, this]

/-- C2 (amended): the partitioner maps each term whose text matches
`\bclass\s+([a-f])\b` (case-insensitive) to that letter's group, and
every other term — in particular terms carrying a "tranche" identifier
or a class letter outside `a`-`f` — to the residual general list, both
in input order. -/
theorem c2_partitioner_groups (terms : List String) :
    (separate_terms_by_class terms).2 =
        terms.filter (fun t => (searchClassStrict t).isNone) ∧
      ∀ c, getGroup c (separate_terms_by_class terms).1 =
        terms.filter (fun t => searchClassStrict t = some c) := by
  constructor
  · simpa using sepGo_snd terms [] []
  · intro c
    simpa [getGroup] using sepGo_groups terms [] [] c

/-- C2 (counterexample): the term `"tranche b principal"` carries the
structural identifier `b` in the spec's sense, but the partitioner
assigns it to the general group and creates no identifier group at all. -/
theorem c2_counterexample :
    specStructuralIdentifier "tranche b principal" = some 'b' ∧
      separate_terms_by_class ["tranche b principal"] =
        ([], ["tranche b principal"]) := by
  decide

/-! ## Duplicate removal -/

theorem mem_dedupSeen {α : Type} [DecidableEq α] :
    ∀ (l acc : List α) (x : α), x ∈ dedupSeen acc l ↔ x ∈ acc ∨ x ∈ l := by
  intro l
  induction l with
  | nil => intro acc x; simp [dedupSeen]
  | cons t rest ih =>
    intro acc x
    by_cases h : t ∈ acc
    · rw [dedupSeen, if_pos h, ih]
      constructor
      · rintro (hx | hx)
        · exact Or.inl hx
        · exact Or.inr (List.mem_cons_of_mem t hx)
      · rintro (hx | hx)
        · exact Or.inl hx
        · rcases List.mem_cons.mp hx with hx | hx
          · exact Or.inl (hx ▸ h)
          · exact Or.inr hx
    · rw [dedupSeen, if_neg h, ih]
      simp [List.mem_append, List.mem_cons, or_assoc]

theorem dedupSeen_nodup {α : Type} [DecidableEq α] :
    ∀ (l acc : List α), acc.Nodup → (dedupSeen acc l).Nodup := by
  intro l
  induction l with
  | nil => intro acc h; simpa [dedupSeen] using h
  | cons t rest ih =>
    intro acc h
    by_cases ht : t ∈ acc
    · rw [dedupSeen, if_pos ht]; exact ih acc h
    · rw [dedupSeen, if_neg ht]
      refine ih (acc ++ [t]) ?_
      rw [List.nodup_append]
      exact ⟨h, List.nodup_singleton t, List.disjoint_singleton.mpr ht⟩

theorem dedupFirst_nodup {α : Type} [DecidableEq α] (l : List α) :
    (dedupFirst l).Nodup :=
  dedupSeen_nodup l [] List.nodup_nil

theorem mem_dedupFirst {α : Type} [DecidableEq α] (l : List α) (x : α) :
    x ∈ dedupFirst l ↔ x ∈ l := by
  rw [dedupFirst, mem_dedupSeen]
  simp

/-! ## Cluster coverage (claim C1) -/

theorem flatten_filter_cons {α β : Type} [DecidableEq β] (p : α × β)
    (ps : List (α × β)) :
    ∀ ds : List β, ds.Nodup → p.2 ∈ ds →
      ((ds.map (fun d => (p :: ps).filter (fun q => q.2 = d))).flatten).Perm
        (p :: (ds.map (fun d => ps.filter (fun q => q.2 = d))).flatten) := by
  intro ds
  induction ds with
  | nil => intro _ h; exact absurd h (List.not_mem_nil p.2)
  | cons d rest ih =>
    intro hnd hmem
    rw [List.nodup_cons] at hnd
    rw [List.map_cons, List.map_cons, List.flatten_cons, List.flatten_cons]
    by_cases h : p.2 = d
    · have hrest : rest.map (fun d => (p :: ps).filter (fun q => q.2 = d)) =
          rest.map (fun d => ps.filter (fun q => q.2 = d)) := by
        refine List.map_congr_left ?_
        intro d' hd'
        rw [List.filter_cons]
        rw [if_neg (by
          simp only [decide_eq_true_eq]
          intro hh
          exact hnd.1 ((hh.symm.trans h) ▸ hd'))]
      rw [hrest, List.filter_cons, if_pos (by simpa using h), List.cons_append]
    · have hp2 : p.2 ∈ rest := by
        rcases List.mem_cons.mp hmem with hm | hm
        · exact absurd hm h
        · exact hm
      rw [List.filter_cons, if_neg (by simpa using h)]
      refine (List.Perm.append_left _ (ih hnd.2 hp2)).trans ?_
      exact List.perm_middle

theorem join_filter_perm {α β : Type} [DecidableEq α] [DecidableEq β]
    (pairs : List (α × β)) (ds : List β) (hnd : ds.Nodup)
    (hcover : ∀ p ∈ pairs, p.2 ∈ ds) :
    ((ds.map (fun d => pairs.filter (fun p => p.2 = d))).flatten).Perm pairs := by
  induction pairs with
  | nil => simp
  | cons p ps ih =>
    refine (flatten_filter_cons p ps ds hnd
      (hcover p (List.mem_cons_self p ps))).trans ?_
    exact List.Perm.cons p
      (ih (fun q hq => hcover q (List.mem_cons_of_mem p hq)))

theorem labelGroups_flatten_perm (terms : List String) (labels : List Nat)
    (hlen : labels.length = terms.length) :
    ((labelGroups terms labels).flatten).Perm terms := by
  have hperm :
      (((dedupFirst labels).map
        (fun d => (terms.zip labels).filter (fun p => p.2 = d))).flatten).Perm
        (terms.zip labels) := by
    refine join_filter_perm (terms.zip labels) (dedupFirst labels)
      (dedupFirst_nodup labels) ?_
    intro p hp
    rw [mem_dedupFirst]
    rcases p with ⟨x, y⟩
    exact (List.of_mem_zip hp).2
  have hmapped := hperm.map Prod.fst
  rw [List.map_fst_zip terms labels (Nat.le_of_eq hlen.symm)] at hmapped
  have heq : (labelGroups terms labels).flatten =
      List.map Prod.fst
        (((dedupFirst labels).map
          (fun d => (terms.zip labels).filter (fun p => p.2 = d))).flatten) := by
    rw [List.map_flatten, List.map_map]
    rfl
  rw [heq]
  exact hmapped

theorem flatMap_perm_congr {α β : Type} (l : List α) (f g : α → List β)
    (h : ∀ a ∈ l, (f a).Perm (g a)) : (l.flatMap f).Perm (l.flatMap g) := by
  induction l with
  | nil => simp
  | cons a rest ih =>
    rw [List.flatMap_cons, List.flatMap_cons]
    exact (h a (List.mem_cons_self a rest)).append
      (ih (fun b hb => h b (List.mem_cons_of_mem a hb)))

theorem cluster_similar_terms_flat_perm (labeler : Nat → List String → List Nat)
    (feats : List String → List String) (gname : String) (ts : List String)
    (hlab : LabelerOk labeler) :
    ((cluster_similar_terms labeler feats gname ts).flatMap
      (fun cd => cd.terms)).Perm ts := by
  rw [cluster_similar_terms]
  by_cases h : ts.length ≤ 2
  · rw [if_pos h, List.flatMap_map]
    simp [singletonCluster]
  · rw [if_neg h, List.flatMap_map]
    have : (labelGroups ts
        (labeler (if strStartsWith gname "class_" then
            min ts.length (max 2 (ts.length / 2))
          else min ts.length (max 2 (ts.length / 3))) ts)).flatMap
        (fun g => g) |>.Perm ts := by
      rw [show (fun g : List String => g) = id from rfl, List.flatMap_id]
      exact labelGroups_flatten_perm ts _ (hlab _ ts)
    exact this

/-- Every enumerated pair's data component, flat-mapped, ignores the ids. -/
theorem enumFrom_flatMap_snd {α β : Type} (f : α → List β) :
    ∀ (l : List α) (n : Nat),
      (List.enumFrom n l).flatMap (fun p => f p.2) = l.flatMap f := by
  intro l
  induction l with
  | nil => intro n; simp
  | cons a rest ih =>
    intro n
    rw [List.enumFrom_cons, List.flatMap_cons, List.flatMap_cons, ih]

theorem classGroupClusters_flat_perm (labeler : Nat → List String → List Nat)
    (feats : List String → List String) (c : Char) (ts : List String)
    (hlab : LabelerOk labeler) :
    ((classGroupClusters labeler feats c ts).flatMap
      (fun cd => cd.terms)).Perm ts := by
  match ts with
  | [] => simp [classGroupClusters, cluster_similar_terms, singletonCluster]
  | [t] => simp [classGroupClusters]
  | t :: u :: rest =>
    rw [show classGroupClusters labeler feats c (t :: u :: rest) =
      (cluster_similar_terms labeler feats ("class_" ++ c.toString)
        (t :: u :: rest)).map (fun cd => { cd with cls := some c }) from rfl]
    rw [List.flatMap_map]
    exact cluster_similar_terms_flat_perm labeler feats _ _ hlab

theorem class_aware_flat_perm (labeler : Nat → List String → List Nat)
    (feats : List String → List String) (cts : List (Char × List String))
    (gen : List String) (hlab : LabelerOk labeler) :
    (allClusterTerms (class_aware_clustering labeler feats cts gen)).Perm
      ((cts.flatMap (fun p => p.2)) ++ gen) := by
  rw [class_aware_clustering, allClusterTerms]
  rw [show List.enum = List.enumFrom 0 from rfl, enumFrom_flatMap_snd]
  rw [List.flatMap_append]
  refine List.Perm.append ?_ ?_
  · rw [List.flatMap_assoc]
    refine flatMap_perm_congr cts _ _ ?_
    intro p _
    exact classGroupClusters_flat_perm labeler feats p.1 p.2 hlab
  · by_cases hg : gen.isEmpty
    · rw [if_pos hg, List.isEmpty_iff.mp hg]
      simp
    · rw [if_neg hg, List.flatMap_map]
      exact cluster_similar_terms_flat_perm labeler feats _ _ hlab

theorem sepGo_insert_flat_perm (acc : List (Char × List String)) (c : Char)
    (t : String) :
    ((insertClassTerm acc c t).flatMap (fun p => p.2)).Perm
      (acc.flatMap (fun p => p.2) ++ [t]) := by
  induction acc with
  | nil => simp [insertClassTerm]
  | cons hd tl ih =>
    obtain ⟨e, ts⟩ := hd
    rw [insertClassTerm]
    by_cases he : e = c
    · rw [if_pos he, List.flatMap_cons, List.flatMap_cons, List.append_assoc,
        List.append_assoc]
      exact List.Perm.append_left ts List.perm_append_comm
    · rw [if_neg he, List.flatMap_cons, List.flatMap_cons, List.append_assoc]
      exact List.Perm.append_left ts ih

theorem sepGo_flat_perm (ts : List String) :
    ∀ (acc : List (Char × List String)) (gen : List String),
      (((sepGo acc gen ts).1.flatMap (fun p => p.2)) ++ (sepGo acc gen ts).2).Perm
        ((acc.flatMap (fun p => p.2)) ++ gen ++ ts) := by
  induction ts with
  | nil => intro acc gen; simp [sepGo]
  | cons t rest ih =>
    intro acc gen
    rw [sepGo]
    cases h : searchClassStrict t with
    | some c =>
      refine (ih (insertClassTerm acc c t) gen).trans ?_
      refine (List.Perm.append (List.Perm.append
        (sepGo_insert_flat_perm acc c t) (List.Perm.refl gen))
        (List.Perm.refl rest)).trans ?_
      rw [List.append_assoc, List.append_assoc, List.append_assoc]
      refine List.Perm.append_left _ ?_
      rw [← List.append_assoc]
      refine (List.Perm.append (List.perm_append_comm) (List.Perm.refl rest)).trans ?_
      rw [List.append_assoc, List.singleton_append]
    | none =>
      refine (ih acc (gen ++ [t])).trans ?_
      rw [List.append_assoc, List.append_assoc, List.append_assoc,
        List.singleton_append]

/-- C1 (amended): for every input of at least two terms (before
deduplication) and every labeling oracle that returns one label per term,
the concatenation of all produced clusters' member lists is a permutation
of the deduplicated input — no term lost, none duplicated (the
deduplicated input has no duplicates).  Inputs of fewer than two terms
return an empty cluster map (see the counterexample). -/
theorem c1_cluster_coverage (labeler : Nat → List String → List Nat)
    (feats : List String → List String) (terms : List String)
    (hlab : LabelerOk labeler) (h2 : 2 ≤ terms.length) :
    (allClusterTerms (cluster_terms labeler feats terms)).Perm
        (dedupFirst terms) ∧
      (dedupFirst terms).Nodup := by
  refine ⟨?_, dedupFirst_nodup terms⟩
  rw [cluster_terms, if_neg (by omega)]
  by_cases h3 : (dedupFirst terms).length ≤ 3
  · rw [if_pos h3, allClusterTerms, List.flatMap_map]
    rw [show List.enum = List.enumFrom 0 from rfl,
      enumFrom_flatMap_snd (fun t => (singletonCluster t).terms)]
    simp [singletonCluster]
  · rw [if_neg h3]
    refine (class_aware_flat_perm labeler feats _ _ hlab).trans ?_
    have := sepGo_flat_perm (dedupFirst terms) [] []
    simpa [separate_terms_by_class] using this

/-- C1 (counterexample): a single-term input has one unique term, but
`cluster_terms` returns an empty cluster map instead of a singleton
cluster, so the term is in no cluster. -/
theorem c1_counterexample :
    cluster_terms rangeLabeler idFeats ["a"] = [] ∧
      dedupFirst ["a"] = ["a"] := by
  decide

/-- C1 (witness): the coverage theorem applied to a concrete five-term
input with the identity-style oracles. -/
theorem c1_cluster_coverage_witness :
    (allClusterTerms (cluster_terms rangeLabeler idFeats
        ["class a fee", "class a rate", "pool", "net", "x1"])).Perm
        (dedupFirst ["class a fee", "class a rate", "pool", "net", "x1"]) ∧
      (dedupFirst ["class a fee", "class a rate", "pool", "net", "x1"]).Nodup :=
  c1_cluster_coverage rangeLabeler idFeats
    ["class a fee", "class a rate", "pool", "net", "x1"]
    (fun _ ts => by simp [rangeLabeler]) (by decide)

/-! ## Sub-cluster counts and shortcut (claims C7, C9) -/

/-- C7: the vector clusterer gives every term of a partition of at most 2
terms its own singleton cluster (no vectorization), and for larger
partitions it groups the terms by the labels the centroid algorithm
returns when invoked with `k = min(size, max(2, size // 2))` for
`class_*` partitions and `k = min(size, max(2, size // 3))` for the
general partition. -/
theorem c7_cluster_similar_k (labeler : Nat → List String → List Nat)
    (feats : List String → List String) (groupName : String)
    (terms : List String) :
    (terms.length ≤ 2 →
        cluster_similar_terms labeler feats groupName terms =
          terms.map singletonCluster) ∧
      (2 < terms.length →
        cluster_similar_terms labeler feats groupName terms =
          (labelGroups terms
            (labeler
              (if strStartsWith groupName "class_" then
                min terms.length (max 2 (terms.length / 2))
              else min terms.length (max 2 (terms.length / 3)))
              terms)).map
            (fun g => { terms := g, count := g.length, topFeatures := feats g,
                        cls := none })) := by
  constructor
  · intro h
    rw [cluster_similar_terms, if_pos h]
  · intro h
    rw [cluster_similar_terms, if_neg (by omega)]

/-- C7 (witness): both branches of the theorem at concrete partitions
(a two-term partition and a four-term `class_a` partition). -/
theorem c7_cluster_similar_k_witness :
    cluster_similar_terms rangeLabeler idFeats "general" ["x", "y"] =
        [singletonCluster "x", singletonCluster "y"] ∧
      cluster_similar_terms rangeLabeler idFeats "class_a"
          ["u", "v", "w", "z"] =
        [{ terms := ["u"], count := 1, topFeatures := ["u"], cls := none },
         { terms := ["v"], count := 1, topFeatures := ["v"], cls := none },
         { terms := ["w"], count := 1, topFeatures := ["w"], cls := none },
         { terms := ["z"], count := 1, topFeatures := ["z"], cls := none }] := by
  constructor
  · exact ((c7_cluster_similar_k rangeLabeler idFeats "general"
      ["x", "y"]).1 (by decide)).trans (by decide)
  · exact ((c7_cluster_similar_k rangeLabeler idFeats "class_a"
      ["u", "v", "w", "z"]).2 (by decide)).trans (by decide)

theorem mem_enumFrom_snd {α : Type} :
    ∀ (l : List α) (n : Nat) (p : Nat × α), p ∈ List.enumFrom n l → p.2 ∈ l := by
  intro l
  induction l with
  | nil => intro n p h; simp at h
  | cons a rest ih =>
    intro n p h
    rw [List.enumFrom_cons] at h
    rcases List.mem_cons.mp h with h | h
    · rw [h]
      exact List.mem_cons_self a rest
    · exact List.mem_cons_of_mem a (ih (n + 1) p h)

theorem cluster_similar_terms_count (labeler : Nat → List String → List Nat)
    (feats : List String → List String) (gname : String) (ts : List String) :
    ∀ cd ∈ cluster_similar_terms labeler feats gname ts,
      cd.count = cd.terms.length := by
  intro cd hcd
  rw [cluster_similar_terms] at hcd
  by_cases h : ts.length ≤ 2
  · rw [if_pos h] at hcd
    rcases List.mem_map.mp hcd with ⟨t, _, rfl⟩
    rfl
  · rw [if_neg h] at hcd
    rcases List.mem_map.mp hcd with ⟨g, _, rfl⟩
    rfl

theorem classGroupClusters_count (labeler : Nat → List String → List Nat)
    (feats : List String → List String) (c : Char) (ts : List String) :
    ∀ cd ∈ classGroupClusters labeler feats c ts,
      cd.count = cd.terms.length := by
  intro cd hcd
  match ts with
  | [] =>
    rw [show classGroupClusters labeler feats c [] =
      (cluster_similar_terms labeler feats ("class_" ++ c.toString) []).map
        (fun cd => { cd with cls := some c }) from rfl] at hcd
    rcases List.mem_map.mp hcd with ⟨cd0, hcd0, heq⟩
    rw [← heq]
    exact cluster_similar_terms_count labeler feats _ _ cd0 hcd0
  | [t] =>
    rcases List.mem_cons.mp hcd with h | h
    · rw [h]
      rfl
    · simp at h
  | t :: u :: rest =>
    rw [show classGroupClusters labeler feats c (t :: u :: rest) =
      (cluster_similar_terms labeler feats ("class_" ++ c.toString)
        (t :: u :: rest)).map (fun cd => { cd with cls := some c }) from rfl]
      at hcd
    rcases List.mem_map.mp hcd with ⟨cd0, hcd0, heq⟩
    rw [← heq]
    exact cluster_similar_terms_count labeler feats _ _ cd0 hcd0

theorem classGroupClusters_cls (labeler : Nat → List String → List Nat)
    (feats : List String → List String) (c : Char) (ts : List String) :
    ∀ cd ∈ classGroupClusters labeler feats c ts, cd.cls = some c := by
  intro cd hcd
  match ts with
  | [] =>
    rw [show classGroupClusters labeler feats c [] =
      (cluster_similar_terms labeler feats ("class_" ++ c.toString) []).map
        (fun cd => { cd with cls := some c }) from rfl] at hcd
    rcases List.mem_map.mp hcd with ⟨cd0, _, heq⟩
    rw [← heq]
  | [t] =>
    rcases List.mem_cons.mp hcd with h | h
    · rw [h]
    · simp at h
  | t :: u :: rest =>
    rw [show classGroupClusters labeler feats c (t :: u :: rest) =
      (cluster_similar_terms labeler feats ("class_" ++ c.toString)
        (t :: u :: rest)).map (fun cd => { cd with cls := some c }) from rfl]
      at hcd
    rcases List.mem_map.mp hcd with ⟨cd0, _, heq⟩
    rw [← heq]

theorem class_aware_count (labeler : Nat → List String → List Nat)
    (feats : List String → List String) (cts : List (Char × List String))
    (gen : List String) :
    ∀ p ∈ class_aware_clustering labeler feats cts gen,
      (p : Nat × ClusterData).2.count = p.2.terms.length := by
  intro p hp
  rw [class_aware_clustering] at hp
  have hmem := mem_enumFrom_snd _ 0 p hp
  rcases List.mem_append.mp hmem with hmem | hmem
  · rcases List.mem_flatMap.mp hmem with ⟨⟨c, ts⟩, _, hcd⟩
    exact classGroupClusters_count labeler feats c ts p.2 hcd
  · by_cases hg : gen.isEmpty
    · rw [if_pos hg] at hmem
      simp at hmem
    · rw [if_neg hg] at hmem
      rcases List.mem_map.mp hmem with ⟨cd0, hcd0, heq⟩
      rw [← heq]
      exact cluster_similar_terms_count labeler feats _ _ cd0 hcd0

/-- C9 (amended): duplicates collapse before clustering — the output of
`cluster_terms` depends only on the first-occurrence deduplication of the
input (for inputs long enough to be clustered at all) — but original
multiplicity is NOT preserved: every produced cluster's `count` field
equals the number of its (unique) member terms, not the number of
original occurrences (see the counterexample). -/
theorem c9_dedup_collapse_and_count (labeler : Nat → List String → List Nat)
    (feats : List String → List String) :
    (∀ t1 t2 : List String, dedupFirst t1 = dedupFirst t2 →
        2 ≤ t1.length → 2 ≤ t2.length →
        cluster_terms labeler feats t1 = cluster_terms labeler feats t2) ∧
      (∀ (terms : List String) (p : Nat × ClusterData),
        p ∈ cluster_terms labeler feats terms →
        p.2.count = p.2.terms.length) := by
  constructor
  · intro t1 t2 h h1 h2
    rw [cluster_terms, cluster_terms,
      if_neg (by omega : ¬ t1.length < 2),
      if_neg (by omega : ¬ t2.length < 2), h]
  · intro terms p hp
    rw [cluster_terms] at hp
    by_cases hlen : terms.length < 2
    · rw [if_pos hlen] at hp
      simp at hp
    · rw [if_neg hlen] at hp
      by_cases h3 : (dedupFirst terms).length ≤ 3
      · rw [if_pos h3] at hp
        rcases List.mem_map.mp hp with ⟨q, _, rfl⟩
        rfl
      · rw [if_neg h3] at hp
        exact class_aware_count labeler feats _ _ p hp

/-- C9 (counterexample): the input `["y", "y", "y"]` has three
occurrences of its single unique term, but the produced cluster records
`count = 1` (the number of unique member terms), so the original
multiplicity is not reflected in the cluster's term count. -/
theorem c9_counterexample :
    cluster_terms rangeLabeler idFeats ["y", "y", "y"] =
        [(0, { terms := ["y"], count := 1, topFeatures := ["y"], cls := none })] ∧
      List.count "y" ["y", "y", "y"] = 3 := by
  decide

/-- C9 (witness): the dedup-collapse part applied to two concrete inputs
with equal deduplications, and the count characterization at a concrete
produced cluster. -/
theorem c9_dedup_collapse_witness :
    cluster_terms rangeLabeler idFeats ["p", "q", "p"] =
        cluster_terms rangeLabeler idFeats ["p", "q", "q", "p"] ∧
      ((0 : Nat),
          ({ terms := ["p"], count := 1, topFeatures := ["p"],
             cls := none } : ClusterData)).2.count =
        (["p"] : List String).length := by
  constructor
  · exact (c9_dedup_collapse_and_count rangeLabeler idFeats).1
      ["p", "q", "p"] ["p", "q", "q", "p"] (by decide) (by decide) (by decide)
  · exact (c9_dedup_collapse_and_count rangeLabeler idFeats).2
      ["p", "q", "p"]
      ((0 : Nat),
        ({ terms := ["p"], count := 1, topFeatures := ["p"],
           cls := none } : ClusterData)) (by decide)

/-! ## Cluster id assignment (claim C10) -/

theorem le_of_mem_enumFrom {α : Type} :
    ∀ (l : List α) (n : Nat) (p : Nat × α), p ∈ List.enumFrom n l → n ≤ p.1 := by
  intro l
  induction l with
  | nil => intro n p h; simp at h
  | cons a rest ih =>
    intro n p h
    rw [List.enumFrom_cons] at h
    rcases List.mem_cons.mp h with h | h
    · rw [h]
    · exact Nat.le_of_succ_le (ih (n + 1) p h)

theorem enumFrom_append_cases {α : Type} :
    ∀ (A : List α) (B : List α) (n : Nat) (p : Nat × α),
      p ∈ List.enumFrom n (A ++ B) →
      (p.1 < n + A.length ∧ p.2 ∈ A) ∨ (n + A.length ≤ p.1 ∧ p.2 ∈ B) := by
  intro A
  induction A with
  | nil =>
    intro B n p h
    exact Or.inr ⟨by simpa using le_of_mem_enumFrom B n p h,
      mem_enumFrom_snd B n p h⟩
  | cons a A' ih =>
    intro B n p h
    rw [List.cons_append, List.enumFrom_cons] at h
    rcases List.mem_cons.mp h with h | h
    · refine Or.inl ⟨?_, by rw [h]; exact List.mem_cons_self a A'⟩
      rw [h]
      simp only [List.length_cons]
      omega
    · rcases ih B (n + 1) p h with ⟨h1, h2⟩ | ⟨h1, h2⟩
      · exact Or.inl ⟨by simp only [List.length_cons]; omega,
          List.mem_cons_of_mem a h2⟩
      · exact Or.inr ⟨by simp only [List.length_cons]; omega, h2⟩

/-- C10: class-aware clustering assigns the consecutive ids
`0, 1, ..., n-1` (the id list is exactly `List.range n`), and every
cluster of a structurally-identified partition (its `class` field set)
has a strictly smaller id than every general-partition cluster (its
`class` field `None`). -/
theorem c10_cluster_ids (labeler : Nat → List String → List Nat)
    (feats : List String → List String) (cts : List (Char × List String))
    (gen : List String) :
    ((class_aware_clustering labeler feats cts gen).map Prod.fst =
        List.range (class_aware_clustering labeler feats cts gen).length) ∧
      ∀ p q : Nat × ClusterData,
        p ∈ class_aware_clustering labeler feats cts gen →
        q ∈ class_aware_clustering labeler feats cts gen →
        p.2.cls.isSome → q.2.cls = none → p.1 < q.1 := by
  constructor
  · rw [class_aware_clustering]
    rw [List.enum_map_fst, List.enum_length]
  · intro p q hp hq hps hqn
    rw [class_aware_clustering] at hp hq
    have hA : ∀ cd ∈ cts.flatMap
        (fun pp => classGroupClusters labeler feats pp.1 pp.2),
        (cd : ClusterData).cls.isSome := by
      intro cd hcd
      rcases List.mem_flatMap.mp hcd with ⟨⟨c, ts⟩, _, hcd⟩
      rw [classGroupClusters_cls labeler feats c ts cd hcd]
      rfl
    have hB : ∀ cd ∈ (if gen.isEmpty then ([] : List ClusterData)
        else (cluster_similar_terms labeler feats "general" gen).map
          (fun cd => { cd with cls := none })),
        (cd : ClusterData).cls = none := by
      intro cd hcd
      by_cases hg : gen.isEmpty
      · rw [if_pos hg] at hcd
        simp at hcd
      · rw [if_neg hg] at hcd
        rcases List.mem_map.mp hcd with ⟨cd0, _, heq⟩
        rw [← heq]
    rcases enumFrom_append_cases _ _ 0 p hp with ⟨h1, h2⟩ | ⟨h1, h2⟩
    · rcases enumFrom_append_cases _ _ 0 q hq with ⟨g1, g2⟩ | ⟨g1, g2⟩
      · exact absurd (hA q.2 g2) (by rw [hqn]; simp)
      · omega
    · exact absurd hps (by rw [hB p.2 h2]; simp)

/-! ## Confidence scorer (claim C4) -/

theorem mappingFor_spec (wratioFn : String → String → Int) (threshold : Int)
    (id0 : Nat) (cd : ClusterData) (cn : String) (term : String)
    (m : Mapping) (h : mappingFor wratioFn threshold id0 cd cn term = some m) :
    threshold ≤ m.fuzzyScore ∧
      m.confidence = (if m.fuzzyScore ≥ 95 then "very_high"
        else if m.fuzzyScore ≥ 85 then "high" else "medium") := by
  rw [mappingFor] at h
  by_cases hs : calculate_term_confidence wratioFn term cn cd ≥ threshold
  · rw [if_pos hs] at h
    rcases Option.some.inj h with rfl
    refine ⟨hs, ?_⟩
    show calculate_confidence_level threshold
        (calculate_term_confidence wratioFn term cn cd) =
      (if calculate_term_confidence wratioFn term cn cd ≥ 95 then "very_high"
       else if calculate_term_confidence wratioFn term cn cd ≥ 85 then "high"
       else "medium")
    rw [calculate_confidence_level]
    by_cases h95 : calculate_term_confidence wratioFn term cn cd ≥ 95
    · rw [if_pos h95, if_pos h95]
    · rw [if_neg h95, if_neg h95]
      by_cases h85 : calculate_term_confidence wratioFn term cn cd ≥ 85
      · rw [if_pos h85, if_pos h85]
      · rw [if_neg h85, if_neg h85, if_pos hs]
  · rw [if_neg hs] at h
    exact absurd h (by simp)

/-- C4: every emitted mapping scores at least the configured fuzzy
threshold (below-threshold pairs are discarded, never emitted), its tier
follows the `≥95 → very_high`, `≥85 → high`, otherwise `medium` cascade,
and the tier `low` never appears in an emitted mapping. -/
theorem c4_threshold_and_tiers (wratioFn : String → String → Int)
    (threshold : Int) (clusters : List (Nat × ClusterData))
    (names : List (Nat × String)) :
    ∀ m ∈ create_mappings wratioFn threshold clusters names,
      threshold ≤ m.fuzzyScore ∧
        m.confidence = (if m.fuzzyScore ≥ 95 then "very_high"
          else if m.fuzzyScore ≥ 85 then "high" else "medium") ∧
        m.confidence ≠ "low" := by
  intro m hm
  rw [create_mappings] at hm
  rcases List.mem_flatMap.mp hm with ⟨⟨id0, cd⟩, _, hm⟩
  rcases List.mem_filterMap.mp hm with ⟨term, _, hsome⟩
  have hspec := mappingFor_spec wratioFn threshold id0 cd
    ((lookupName names id0).getD "") term m hsome
  refine ⟨hspec.1, hspec.2, ?_⟩
  rw [hspec.2]
  by_cases h95 : m.fuzzyScore ≥ 95
  · rw [if_pos h95]
    decide
  · rw [if_neg h95]
    by_cases h85 : m.fuzzyScore ≥ 85
    · rw [if_pos h85]
      decide
    · rw [if_neg h85]
      decide

/-- C4 (witness): the theorem applied to a concrete emitted mapping (a
one-cluster, one-term run with a constant similarity oracle). -/
theorem c4_threshold_and_tiers_witness :
    (70 : Int) ≤
        ({ originalTerm := "alpha", canonicalName := "alpha", clusterId := 0,
           fuzzyScore := 100, fuzzyMatch := "alpha",
           confidence := "very_high" } : Mapping).fuzzyScore ∧
      ({ originalTerm := "alpha", canonicalName := "alpha", clusterId := 0,
         fuzzyScore := 100, fuzzyMatch := "alpha",
         confidence := "very_high" } : Mapping).confidence =
        (if ({ originalTerm := "alpha", canonicalName := "alpha",
               clusterId := 0, fuzzyScore := 100, fuzzyMatch := "alpha",
               confidence := "very_high" } : Mapping).fuzzyScore ≥ 95 then
          "very_high"
        else if ({ originalTerm := "alpha", canonicalName := "alpha",
                   clusterId := 0, fuzzyScore := 100, fuzzyMatch := "alpha",
                   confidence := "very_high" } : Mapping).fuzzyScore ≥ 85 then
          "high"
        else "medium") ∧
      ({ originalTerm := "alpha", canonicalName := "alpha", clusterId := 0,
         fuzzyScore := 100, fuzzyMatch := "alpha",
         confidence := "very_high" } : Mapping).confidence ≠ "low" :=
  c4_threshold_and_tiers (fun _ _ => (80 : Int)) 70
    [(0, { terms := ["alpha"], count := 1, topFeatures := ["alpha"],
           cls := none })]
    [(0, "alpha")]
    { originalTerm := "alpha", canonicalName := "alpha", clusterId := 0,
      fuzzyScore := 100, fuzzyMatch := "alpha", confidence := "very_high" }
    (by decide)

/-! ## Character toolkit (for claim C3) -/

theorem charOfNat_toNat (n : Nat) (h : n.isValidChar) :
    (Char.ofNat n).toNat = n := by
  simp only [Char.ofNat, dif_pos h, Char.ofNatAux, Char.toNat]
  rfl

theorem char_le_iff_toNat (c d : Char) : (c ≤ d) ↔ (c.toNat ≤ d.toNat) := by
  rw [Char.le_def, UInt32.le_def, BitVec.le_def]
  rfl

theorem char_eq_iff_toNat (c d : Char) : (c = d) ↔ (c.toNat = d.toNat) := by
  constructor
  · intro h
    rw [h]
  · intro h
    have hc := Char.ofNat_toNat c
    rw [h, Char.ofNat_toNat d] at hc
    exact hc.symm

theorem charVal_ge_iff (c : Char) (n : UInt32) :
    (c.val ≥ n) ↔ n.toNat ≤ c.toNat := by
  rw [ge_iff_le, UInt32.le_def, BitVec.le_def]
  rfl

theorem charVal_le_iff (c : Char) (n : UInt32) :
    (c.val ≤ n) ↔ c.toNat ≤ n.toNat := by
  rw [UInt32.le_def, BitVec.le_def]
  rfl

theorem toLower_toNat (c : Char) :
    (Char.toLower c).toNat =
      if 65 ≤ c.toNat ∧ c.toNat ≤ 90 then c.toNat + 32 else c.toNat := by
  rw [Char.toLower]
  by_cases h : 65 ≤ c.toNat ∧ c.toNat ≤ 90
  · rw [if_pos (by omega : c.toNat ≥ 65 ∧ c.toNat ≤ 90), if_pos h]
    exact charOfNat_toNat _ (Or.inl (by omega))
  · rw [if_neg (by omega : ¬(c.toNat ≥ 65 ∧ c.toNat ≤ 90)), if_neg h]

theorem isAlphanum_iff_toNat (c : Char) :
    c.isAlphanum = true ↔
      (65 ≤ c.toNat ∧ c.toNat ≤ 90) ∨ (97 ≤ c.toNat ∧ c.toNat ≤ 122) ∨
        (48 ≤ c.toNat ∧ c.toNat ≤ 57) := by
  rw [Char.isAlphanum, Char.isAlpha, Char.isUpper, Char.isLower, Char.isDigit]
  simp only [Bool.or_eq_true, Bool.and_eq_true, decide_eq_true_eq,
    charVal_ge_iff, charVal_le_iff]
  have e65 : (65 : UInt32).toNat = 65 := rfl
  have e90 : (90 : UInt32).toNat = 90 := rfl
  have e97 : (97 : UInt32).toNat = 97 := rfl
  have e122 : (122 : UInt32).toNat = 122 := rfl
  have e48 : (48 : UInt32).toNat = 48 := rfl
  have e57 : (57 : UInt32).toNat = 57 := rfl
  rw [e65, e90, e97, e122, e48, e57]
  omega

theorem isWordCharB_iff_toNat (c : Char) :
    isWordCharB c = true ↔
      (65 ≤ c.toNat ∧ c.toNat ≤ 90) ∨ (97 ≤ c.toNat ∧ c.toNat ≤ 122) ∨
        (48 ≤ c.toNat ∧ c.toNat ≤ 57) ∨ c.toNat = 95 := by
  rw [isWordCharB]
  simp only [Bool.or_eq_true, decide_eq_true_eq, isAlphanum_iff_toNat,
    char_eq_iff_toNat]
  have h95 : ('_').toNat = 95 := rfl
  rw [h95]
  tauto

theorem lowerShapeChar_iff_toNat (c : Char) :
    lowerShapeChar c = true ↔
      (97 ≤ c.toNat ∧ c.toNat ≤ 122) ∨ (48 ≤ c.toNat ∧ c.toNat ≤ 57) ∨
        c.toNat = 95 := by
  rw [lowerShapeChar]
  simp only [Bool.or_eq_true, Bool.and_eq_true, decide_eq_true_eq,
    char_le_iff_toNat, char_eq_iff_toNat]
  have h95 : ('_').toNat = 95 := rfl
  rw [h95]
  constructor
  · rintro ((⟨h1, h2⟩ | ⟨h1, h2⟩) | h)
    · exact Or.inl ⟨by exact h1, by exact h2⟩
    · exact Or.inr (Or.inl ⟨by exact h1, by exact h2⟩)
    · exact Or.inr (Or.inr h)
  · rintro (⟨h1, h2⟩ | ⟨h1, h2⟩ | h)
    · exact Or.inl (Or.inl ⟨h1, h2⟩)
    · exact Or.inl (Or.inr ⟨h1, h2⟩)
    · exact Or.inr h

theorem lowerShape_of_wordChar_toLower (c : Char)
    (h : isWordCharB (Char.toLower c) = true) :
    lowerShapeChar (Char.toLower c) = true := by
  rw [isWordCharB_iff_toNat, toLower_toNat] at h
  rw [lowerShapeChar_iff_toNat, toLower_toNat]
  by_cases hc : 65 ≤ c.toNat ∧ c.toNat ≤ 90
  · rw [if_pos hc] at h ⊢
    omega
  · rw [if_neg hc] at h ⊢
    omega

theorem toLower_alnum (c : Char) (h : c.isAlphanum = true) :
    (Char.toLower c).isAlphanum = true := by
  rw [isAlphanum_iff_toNat] at h ⊢
  rw [toLower_toNat]
  by_cases hc : 65 ≤ c.toNat ∧ c.toNat ≤ 90
  · rw [if_pos hc]
    omega
  · rw [if_neg hc]
    omega

theorem alnum_ne_space (c : Char) (h : c.isAlphanum = true) : c ≠ ' ' := by
  intro hc
  rw [isAlphanum_iff_toNat] at h
  rw [hc] at h
  have : (' ').toNat = 32 := rfl
  omega

theorem alnum_ne_underscore (c : Char) (h : c.isAlphanum = true) : c ≠ '_' := by
  intro hc
  rw [isAlphanum_iff_toNat] at h
  rw [hc] at h
  have : ('_').toNat = 95 := rfl
  omega

theorem isSpaceChar_toLower (c : Char) :
    isSpaceChar (Char.toLower c) = isSpaceChar c := by
  rw [isSpaceChar, isSpaceChar]
  simp only [char_eq_iff_toNat, toLower_toNat]
  have h1 : (' ').toNat = 32 := rfl
  have h2 : ('\t').toNat = 9 := rfl
  have h3 : ('\n').toNat = 10 := rfl
  have h4 : ('\r').toNat = 13 := rfl
  have h5 : ('\x0b').toNat = 11 := rfl
  have h6 : ('\x0c').toNat = 12 := rfl
  rw [h1, h2, h3, h4, h5, h6]
  by_cases hc : 65 ≤ c.toNat ∧ c.toNat ≤ 90
  · rw [if_pos hc]
    rw [decide_eq_false (by omega : ¬ c.toNat + 32 = 32),
      decide_eq_false (by omega : ¬ c.toNat + 32 = 9),
      decide_eq_false (by omega : ¬ c.toNat + 32 = 10),
      decide_eq_false (by omega : ¬ c.toNat + 32 = 13),
      decide_eq_false (by omega : ¬ c.toNat + 32 = 11),
      decide_eq_false (by omega : ¬ c.toNat + 32 = 12),
      decide_eq_false (by omega : ¬ c.toNat = 32),
      decide_eq_false (by omega : ¬ c.toNat = 9),
      decide_eq_false (by omega : ¬ c.toNat = 10),
      decide_eq_false (by omega : ¬ c.toNat = 13),
      decide_eq_false (by omega : ¬ c.toNat = 11),
      decide_eq_false (by omega : ¬ c.toNat = 12)]
  · rw [if_neg hc]

/-! ## Name-shape lemmas (for claim C3) -/

theorem noDouble_cons_tail (c : Char) (l : List Char)
    (h : noDoubleUnderscore (c :: l) = true) : noDoubleUnderscore l = true := by
  cases l with
  | nil => rfl
  | cons d rest =>
    rw [noDoubleUnderscore, Bool.and_eq_true] at h
    exact h.2

theorem noDouble_append_right (s t : List Char)
    (h : noDoubleUnderscore (s ++ t) = true) : noDoubleUnderscore t = true := by
  induction s with
  | nil => exact h
  | cons a rest ih =>
    exact ih (noDouble_cons_tail a (rest ++ t) h)

theorem noDouble_append_left (s t : List Char)
    (h : noDoubleUnderscore (s ++ t) = true) : noDoubleUnderscore s = true := by
  induction s with
  | nil => rfl
  | cons a rest ih =>
    cases rest with
    | nil => rfl
    | cons b rest2 =>
      rw [List.cons_append, List.cons_append, noDoubleUnderscore,
        Bool.and_eq_true] at h
      rw [noDoubleUnderscore, Bool.and_eq_true]
      exact ⟨h.1, ih (by rw [List.cons_append]; exact h.2)⟩

theorem noDouble_mid (s l : List Char) (h : s.IsInfix l)
    (hl : noDoubleUnderscore l = true) : noDoubleUnderscore s = true := by
  obtain ⟨a, b, hab⟩ := h
  subst hab
  exact noDouble_append_left s b
    (noDouble_append_right a (s ++ b) (by rw [← List.append_assoc]; exact hl))

theorem collapse_mem (l : List Char) :
    ∀ c ∈ collapseUnderscores l, c ∈ l := by
  induction l with
  | nil => intro c h; simp [collapseUnderscores] at h
  | cons a rest ih =>
    cases rest with
    | nil =>
      intro c h
      simpa [collapseUnderscores] using h
    | cons b rest2 =>
      intro c h
      rw [collapseUnderscores] at h
      by_cases hab : a = '_' ∧ b = '_'
      · rw [if_pos (by simp [hab])] at h
        exact List.mem_cons_of_mem a (ih c h)
      · rw [if_neg (by simpa using hab)] at h
        rcases List.mem_cons.mp h with h | h
        · exact h ▸ List.mem_cons_self a _
        · exact List.mem_cons_of_mem a (ih c h)

theorem collapse_mem_of_ne_underscore (l : List Char) :
    ∀ c, c ≠ '_' → c ∈ l → c ∈ collapseUnderscores l := by
  induction l with
  | nil => intro c _ h; simp at h
  | cons a rest ih =>
    cases rest with
    | nil =>
      intro c hc h
      simpa [collapseUnderscores] using h
    | cons b rest2 =>
      intro c hc h
      rw [collapseUnderscores]
      by_cases hab : a = '_' ∧ b = '_'
      · rw [if_pos (by simp [hab])]
        rcases List.mem_cons.mp h with h | h
        · exact absurd (h.trans hab.1) hc
        · exact ih c hc h
      · rw [if_neg (by simpa using hab)]
        rcases List.mem_cons.mp h with h | h
        · exact h ▸ List.mem_cons_self a _
        · exact List.mem_cons_of_mem a (ih c hc h)

theorem collapse_head (l : List Char) :
    (collapseUnderscores l).head? = l.head? ∨
      ((collapseUnderscores l).head? = some '_' ∧ l.head? = some '_') := by
  cases l with
  | nil => exact Or.inl rfl
  | cons a rest =>
    cases rest with
    | nil => exact Or.inl rfl
    | cons b rest2 =>
      rw [collapseUnderscores]
      by_cases hab : a = '_' ∧ b = '_'
      · rw [if_pos (by simp [hab])]
        right
        constructor
        · rcases collapse_head (b :: rest2) with h | ⟨h, _⟩
          · rw [h]
            simp [hab.2]
          · exact h
        · simp [hab.1]
      · rw [if_neg (by simpa using hab)]
        exact Or.inl rfl

theorem collapse_noDouble (l : List Char) :
    noDoubleUnderscore (collapseUnderscores l) = true := by
  induction l with
  | nil => rfl
  | cons a rest ih =>
    cases rest with
    | nil => rfl
    | cons b rest2 =>
      rw [collapseUnderscores]
      by_cases hab : a = '_' ∧ b = '_'
      · rw [if_pos (by simp [hab])]
        exact ih
      · rw [if_neg (by simpa using hab)]
        cases hcol : collapseUnderscores (b :: rest2) with
        | nil => rfl
        | cons d rest3 =>
          rw [noDoubleUnderscore, Bool.and_eq_true]
          refine ⟨?_, by rw [← hcol]; exact ih⟩
          rcases collapse_head (b :: rest2) with h | ⟨h, h2⟩
          · rw [hcol] at h
            have hd : d = b := by simpa using h
            simp only [Bool.not_eq_true']
            rw [hd]
            by_cases ha : a = '_'
            · have hb : ¬ b = '_' := fun hb => hab ⟨ha, hb⟩
              simp [hb]
            · simp [ha]
          · rw [hcol] at h
            have hd : d = '_' := by simpa using h
            have hb : b = '_' := by simpa using h2
            have ha : ¬ a = '_' := fun ha => hab ⟨ha, hb⟩
            simp only [Bool.not_eq_true']
            simp [ha]

theorem mem_dropWhile_of_ne (p : Char → Bool) (l : List Char) (c : Char)
    (hc : p c = false) (h : c ∈ l) : c ∈ l.dropWhile p := by
  induction l with
  | nil => simp at h
  | cons a rest ih =>
    rw [List.dropWhile_cons]
    by_cases ha : p a = true
    · rw [if_pos ha]
      rcases List.mem_cons.mp h with h | h
      · rw [h] at hc
        rw [ha] at hc
        cases hc
      · exact ih h
    · rw [if_neg ha]
      exact h

theorem strip_mid (l : List Char) : (stripUnderscores l).IsInfix l := by
  rw [stripUnderscores]
  have h1 : (l.dropWhile (fun c => c = '_')) <:+ l := List.dropWhile_suffix _
  have h2 : ((l.dropWhile (fun c => c = '_')).reverse.dropWhile
      (fun c => c = '_')) <:+ (l.dropWhile (fun c => c = '_')).reverse :=
    List.dropWhile_suffix _
  have h3 := List.reverse_prefix.mpr h2
  rw [List.reverse_reverse] at h3
  exact h3.isInfix.trans h1.isInfix

theorem strip_mem_of_ne (l : List Char) (c : Char) (hc : c ≠ '_')
    (h : c ∈ l) : c ∈ stripUnderscores l := by
  rw [stripUnderscores]
  have hcb : (fun c => decide (c = '_')) c = false := by
    simp [hc]
  rw [List.mem_reverse]
  exact mem_dropWhile_of_ne _ _ c hcb
    (by rw [List.mem_reverse]; exact mem_dropWhile_of_ne _ _ c hcb h)

theorem strip_head_ne (l : List Char) (c : Char)
    (h : (stripUnderscores l).head? = some c) : c ≠ '_' := by
  have hpre : stripUnderscores l <+: l.dropWhile (fun c => c = '_') := by
    rw [stripUnderscores]
    have h2 := List.reverse_prefix.mpr
      (List.dropWhile_suffix (l := (l.dropWhile (fun c => c = '_')).reverse)
        (fun c => c = '_'))
    rw [List.reverse_reverse] at h2
    exact h2
  obtain ⟨t, ht⟩ := hpre
  cases hs : stripUnderscores l with
  | nil => rw [hs] at h; cases h
  | cons c0 rest =>
    rw [hs] at h ht
    have hc0 : c0 = c := by simpa using h
    have hd := List.head?_dropWhile_not (fun c => decide (c = '_')) l
    rw [← ht] at hd
    simp only [List.cons_append, List.head?_cons] at hd
    rw [hc0] at hd
    simpa using hd

theorem strip_last_ne (l : List Char) (c : Char)
    (h : (stripUnderscores l).getLast? = some c) : c ≠ '_' := by
  rw [stripUnderscores, List.getLast?_reverse] at h
  have hd := List.head?_dropWhile_not (fun c => decide (c = '_'))
    ((l.dropWhile (fun c => c = '_')).reverse)
  rw [h] at hd
  simpa using hd

theorem clean_good (x : String) (h : hasAlnum x = true) :
    goodShape (clean_canonical_name x) = true := by
  show goodShapeL (stripUnderscores (collapseUnderscores
    ((spacesToUnderscores (strToLower x)).data.filter isWordCharB))) = true
  have hdata : (spacesToUnderscores (strToLower x)).data =
      (x.data.map Char.toLower).map (fun c => if c = ' ' then '_' else c) :=
    rfl
  rw [hdata]
  have hall : ∀ c ∈ ((x.data.map Char.toLower).map
      (fun c => if c = ' ' then '_' else c)).filter isWordCharB,
      lowerShapeChar c = true := by
    intro c hcmem
    have hw := List.of_mem_filter hcmem
    have hcm := List.mem_of_mem_filter hcmem
    rcases List.mem_map.mp hcm with ⟨e, hemem, hec⟩
    rcases List.mem_map.mp hemem with ⟨d, _, hde⟩
    by_cases hsp : e = ' '
    · rw [if_pos hsp] at hec
      rw [← hec]
      rfl
    · rw [if_neg hsp] at hec
      rw [← hec] at hw ⊢
      rw [← hde] at hw ⊢
      exact lowerShape_of_wordChar_toLower d hw
  rcases List.any_eq_true.mp h with ⟨d, hdmem, hdal⟩
  have heal : (Char.toLower d).isAlphanum = true := toLower_alnum d hdal
  have hene : Char.toLower d ≠ '_' := alnum_ne_underscore _ heal
  have hemem : Char.toLower d ∈ ((x.data.map Char.toLower).map
      (fun c => if c = ' ' then '_' else c)).filter isWordCharB := by
    apply List.mem_filter.mpr
    constructor
    · apply List.mem_map.mpr
      refine ⟨Char.toLower d, List.mem_map.mpr ⟨d, hdmem, rfl⟩, ?_⟩
      rw [if_neg (alnum_ne_space _ heal)]
    · rw [isWordCharB, heal]
      rfl
  set l := ((x.data.map Char.toLower).map
    (fun c => if c = ' ' then '_' else c)).filter isWordCharB with hl
  have hmem2 : Char.toLower d ∈ stripUnderscores (collapseUnderscores l) :=
    strip_mem_of_ne _ _ hene (collapse_mem_of_ne_underscore l _ hene hemem)
  have hsub : ∀ c ∈ stripUnderscores (collapseUnderscores l), c ∈ l :=
    fun c hc => collapse_mem l c ((strip_mid (collapseUnderscores l)).subset hc)
  have hnd : noDoubleUnderscore (stripUnderscores (collapseUnderscores l)) =
      true :=
    noDouble_mid _ _ (strip_mid _) (collapse_noDouble l)
  cases hs : stripUnderscores (collapseUnderscores l) with
  | nil =>
    rw [hs] at hmem2
    cases hmem2
  | cons c0 rest =>
    have hc0 : c0 ≠ '_' := strip_head_ne (collapseUnderscores l) c0
      (by rw [hs]; rfl)
    have hlast : (c0 :: rest).getLastD '_' ≠ '_' := by
      cases hz : (c0 :: rest).getLast? with
      | none => simp at hz
      | some z =>
        have hzne : z ≠ '_' := strip_last_ne (collapseUnderscores l) z
          (by rw [hs]; exact hz)
        rw [List.getLastD_eq_getLast?, hz]
        exact hzne
    rw [goodShapeL]
    simp only [Bool.and_eq_true, decide_eq_true_eq, List.all_eq_true]
    refine ⟨⟨⟨hc0, hlast⟩, ?_⟩, by rw [← hs]; exact hnd⟩
    intro c hc
    exact hall c (hsub c (by rw [hs]; exact hc))

/-! ## Membership lemmas for the naming pipeline (claim C3) -/

theorem foldl_choice_mem {α : Type} (cond : α → α → Prop) [DecidableRel cond] :
    ∀ (rest : List α) (t : α),
      rest.foldl (fun best u => if cond u best then u else best) t ∈ t :: rest := by
  intro rest
  induction rest with
  | nil => intro t; exact List.mem_cons_self t _
  | cons u us ih =>
    intro t
    rw [List.foldl_cons]
    rcases List.mem_cons.mp (ih (if cond u t then u else t)) with h | h
    · rw [h]
      by_cases hc : cond u t
      · rw [if_pos hc]
        exact List.mem_cons_of_mem t (List.mem_cons_self u us)
      · rw [if_neg hc]
        exact List.mem_cons_self t _
    · exact List.mem_cons_of_mem t (List.mem_cons_of_mem u h)

theorem select_best_term_mem (terms : List String) (h : terms ≠ []) :
    select_best_term terms ∈ terms := by
  cases terms with
  | nil => exact absurd rfl h
  | cons t rest =>
    rw [select_best_term]
    exact foldl_choice_mem (fun u best => scoreTerm u > scoreTerm best) rest t

theorem insertSndDesc_mem {α β : Type} [LinearOrder β] (x : α × β) :
    ∀ (l : List (α × β)) (y : α × β), y ∈ insertSndDesc x l → y = x ∨ y ∈ l := by
  intro l
  induction l with
  | nil => intro y h; simpa [insertSndDesc] using h
  | cons z zs ih =>
    intro y h
    rw [insertSndDesc] at h
    by_cases hz : z.2 ≤ x.2
    · rw [if_pos hz] at h
      rcases List.mem_cons.mp h with h | h
      · exact Or.inl h
      · exact Or.inr h
    · rw [if_neg hz] at h
      rcases List.mem_cons.mp h with h | h
      · exact Or.inr (h ▸ List.mem_cons_self z zs)
      · rcases ih y h with h | h
        · exact Or.inl h
        · exact Or.inr (List.mem_cons_of_mem z h)

theorem sortSndDesc_mem {α β : Type} [LinearOrder β] :
    ∀ (l : List (α × β)) (y : α × β), y ∈ sortSndDesc l → y ∈ l := by
  intro l
  induction l with
  | nil => intro y h; simpa [sortSndDesc] using h
  | cons x xs ih =>
    intro y h
    rw [sortSndDesc] at h
    rcases insertSndDesc_mem x _ y h with h | h
    · exact h ▸ List.mem_cons_self x xs
    · exact List.mem_cons_of_mem x (ih y h)

theorem lookupPriority_mem (w : String) (s : Int)
    (h : lookupPriority w = some s) : (w, s) ∈ wordPriorities := by
  rw [lookupPriority] at h
  cases hf : wordPriorities.find? (fun p => p.1 == w) with
  | none => rw [hf] at h; cases h
  | some p =>
    rw [hf] at h
    have hmem := List.mem_of_find?_eq_some hf
    have hbeq := List.find?_some hf
    have hw : p.1 = w := by simpa using hbeq
    have hs : p.2 = s := by simpa using h
    have hp : p = (w, s) := by
      rw [← hw, ← hs]
    exact hp ▸ hmem

theorem scoredWords_mem (common : List String) (w : String) (s : Int)
    (h : (w, s) ∈ scoredWords common) :
    (w, s) ∈ wordPriorities ∨ s = 30 := by
  rw [scoredWords] at h
  rcases List.mem_filterMap.mp h with ⟨w0, _, hw0⟩
  cases hlp : lookupPriority w0 with
  | some s0 =>
    rw [hlp] at hw0
    have hws : w0 = w ∧ s0 = s := by
      constructor <;> [exact congrArg Prod.fst (Option.some.inj hw0);
        exact congrArg Prod.snd (Option.some.inj hw0)]
    exact Or.inl (hws.1 ▸ hws.2 ▸ lookupPriority_mem w0 s0 hlp)
  | none =>
    rw [hlp] at hw0
    by_cases hlen : w0.length > 3
    · rw [if_pos hlen] at hw0
      exact Or.inr (congrArg Prod.snd (Option.some.inj hw0)).symm
    · rw [if_neg hlen] at hw0
      cases hw0

theorem selectHigh_mem_aux :
    ∀ (sorted : List (String × Int)) (acc : List String) (w : String),
      w ∈ sorted.foldl
        (fun sel p => if p.2 ≥ 110 then sel ++ [p.1] else sel) acc →
      w ∈ acc ∨ ∃ s, (w, s) ∈ sorted ∧ 110 ≤ s := by
  intro sorted
  induction sorted with
  | nil => intro acc w h; exact Or.inl h
  | cons p rest ih =>
    intro acc w h
    rw [List.foldl_cons] at h
    rcases ih _ w h with h2 | ⟨s, hs, h110⟩
    · by_cases hp : p.2 ≥ 110
      · rw [if_pos hp] at h2
        rcases List.mem_append.mp h2 with h3 | h3
        · exact Or.inl h3
        · have hw : w = p.1 := by simpa using h3
          exact Or.inr ⟨p.2, hw ▸ List.mem_cons_self p rest, hp⟩
      · rw [if_neg hp] at h2
        exact Or.inl h2
    · exact Or.inr ⟨s, List.mem_cons_of_mem p hs, h110⟩

theorem selectRange_mem (lo hi : Int) :
    ∀ (sorted : List (String × Int)) (sel0 : List String) (w : String),
      w ∈ selectRange lo hi sorted sel0 →
      w ∈ sel0 ∨ ∃ s, (w, s) ∈ sorted ∧ lo ≤ s ∧ s < hi := by
  intro sorted
  induction sorted with
  | nil => intro sel0 w h; exact Or.inl h
  | cons p rest ih =>
    intro sel0 w h
    simp only [selectRange, List.foldl_cons] at h
    simp only [selectRange] at ih
    rcases ih _ w h with h2 | ⟨s, hs, hr⟩
    · by_cases h4 : sel0.length ≥ 4
      · rw [if_pos h4] at h2
        exact Or.inl h2
      · rw [if_neg h4] at h2
        by_cases hc : (lo ≤ p.2 && p.2 < hi && !sel0.contains p.1) = true
        · rw [if_pos hc] at h2
          rcases List.mem_append.mp h2 with h3 | h3
          · exact Or.inl h3
          · have hw : w = p.1 := by simpa using h3
            simp only [Bool.and_eq_true, decide_eq_true_eq] at hc
            exact Or.inr ⟨p.2, hw ▸ List.mem_cons_self p rest,
              hc.1.1, hc.1.2⟩
        · rw [if_neg hc] at h2
          exact Or.inl h2
    · exact Or.inr ⟨s, List.mem_cons_of_mem p hs, hr⟩

theorem selectWords_mem (sorted : List (String × Int)) (w : String)
    (h : w ∈ selectWords sorted) : ∃ s, (w, s) ∈ sorted ∧ 40 ≤ s := by
  rw [selectWords] at h
  rcases selectRange_mem 40 60 sorted _ w h with h2 | ⟨s, hs, hr⟩
  · rcases selectRange_mem 60 110 sorted _ w h2 with h3 | ⟨s, hs, hr⟩
    · rcases selectHigh_mem_aux sorted [] w h3 with h4 | ⟨s, hs, hr⟩
      · cases h4
      · exact ⟨s, hs, by omega⟩
    · exact ⟨s, hs, by omega⟩
  · exact ⟨s, hs, by omega⟩

/-! ## Shape facts for joined and fixed names (claim C3) -/

theorem wordPriorities_words_ok :
    ∀ p ∈ wordPriorities,
      goodShape p.1 = true ∧ p.1.data.all (fun c => !(c = '_')) = true := by
  decide

theorem noDouble_glue (lb : List Char) (hglue : noDoubleUnderscore ('_' :: lb) = true) :
    ∀ (la : List Char), noDoubleUnderscore la = true →
      (∀ z, la.getLast? = some z → z ≠ '_') →
      noDoubleUnderscore (la ++ '_' :: lb) = true := by
  intro la
  induction la with
  | nil => intro _ _; exact hglue
  | cons a rest ih =>
    intro hnd hlast
    cases rest with
    | nil =>
      have ha : a ≠ '_' := hlast a rfl
      rw [List.cons_append, List.nil_append, noDoubleUnderscore,
        Bool.and_eq_true]
      refine ⟨?_, hglue⟩
      simp [ha]
    | cons b rest2 =>
      rw [List.cons_append, List.cons_append, noDoubleUnderscore,
        Bool.and_eq_true]
      constructor
      · rw [noDoubleUnderscore, Bool.and_eq_true] at hnd
        exact hnd.1
      · rw [← List.cons_append]
        refine ih (noDouble_cons_tail a _ hnd) ?_
        intro z hz
        exact hlast z (by rw [List.getLast?_cons_cons]; exact hz)

theorem goodShapeL_append_underscore (la lb : List Char)
    (ha : goodShapeL la = true) (hb : goodShapeL lb = true) :
    goodShapeL (la ++ '_' :: lb) = true := by
  cases la with
  | nil => cases ha
  | cons a la' =>
    cases lb with
    | nil => cases hb
    | cons b lb' =>
      simp only [goodShapeL, Bool.and_eq_true, decide_eq_true_eq,
        List.all_eq_true] at ha hb
      obtain ⟨⟨⟨han, hal⟩, haall⟩, hand⟩ := ha
      obtain ⟨⟨⟨hbn, hbl⟩, hball⟩, hbnd⟩ := hb
      rw [List.cons_append]
      simp only [goodShapeL, Bool.and_eq_true, decide_eq_true_eq,
        List.all_eq_true]
      rw [← List.cons_append]
      refine ⟨⟨⟨han, ?_⟩, ?_⟩, ?_⟩
      · rw [List.getLastD_eq_getLast?,
          List.getLast?_append_of_ne_nil _ (by simp : ('_' :: b :: lb') ≠ [])]
        rw [List.getLastD_eq_getLast?] at hbl
        cases hz : ('_' :: b :: lb').getLast? with
        | none => simp at hz
        | some z =>
          have h2 : (b :: lb').getLast? = some z :=
            List.getLast?_cons_cons ▸ hz
          rw [h2] at hbl
          exact hbl
      · intro c hc
        rcases List.mem_append.mp hc with hc | hc
        · exact haall c hc
        · rcases List.mem_cons.mp hc with hc | hc
          · rw [hc]
            rfl
          · exact hball c hc
      · apply noDouble_glue
        · rw [noDoubleUnderscore, Bool.and_eq_true]
          refine ⟨by simp [hbn], hbnd⟩
        · exact hand
        · intro z hz
          rw [List.getLastD_eq_getLast?, hz] at hal
          exact hal

theorem goodShape_append_underscore (a b : String)
    (ha : goodShape a = true) (hb : goodShape b = true) :
    goodShape (a ++ "_" ++ b) = true := by
  show goodShapeL (a ++ "_" ++ b).data = true
  have hdata : (a ++ "_" ++ b).data = a.data ++ '_' :: b.data := by
    show (a.data ++ ['_']) ++ b.data = a.data ++ '_' :: b.data
    rw [List.append_assoc]
    rfl
  rw [hdata]
  exact goodShapeL_append_underscore a.data b.data ha hb

theorem joinSep_underscore_good :
    ∀ (ws : List String), ws ≠ [] → (∀ w ∈ ws, goodShape w = true) →
      goodShape (joinSep "_" ws) = true := by
  intro ws
  induction ws with
  | nil => intro h _; exact absurd rfl h
  | cons x rest ih =>
    intro _ hall
    cases rest with
    | nil => exact hall x (List.mem_cons_self x [])
    | cons y rest2 =>
      rw [joinSep]
      exact goodShape_append_underscore x _
        (hall x (List.mem_cons_self x _))
        (ih (by simp) (fun w hw => hall w (List.mem_cons_of_mem x hw)))

theorem hasAlnum_append_left (a b : String) (h : hasAlnum a = true) :
    hasAlnum (a ++ b) = true := by
  show (a.data ++ b.data).any (fun c => c.isAlphanum) = true
  have h2 : (a.data.any fun c => c.isAlphanum) = true := h
  rw [List.any_append, h2]
  rfl

theorem hasAlnum_append_right (a b : String) (h : hasAlnum b = true) :
    hasAlnum (a ++ b) = true := by
  show (a.data ++ b.data).any (fun c => c.isAlphanum) = true
  have h2 : (b.data.any fun c => c.isAlphanum) = true := h
  rw [List.any_append, h2]
  simp

theorem joinSep_hasAlnum :
    ∀ (ws : List String) (w : String), w ∈ ws → hasAlnum w = true →
      hasAlnum (joinSep "_" ws) = true := by
  intro ws
  induction ws with
  | nil => intro w hw _; cases hw
  | cons x rest ih =>
    intro w hw halw
    cases rest with
    | nil =>
      have : w = x := by simpa using hw
      rw [joinSep]
      exact this ▸ halw
    | cons y rest2 =>
      rw [joinSep]
      rcases List.mem_cons.mp hw with hw | hw
      · exact hasAlnum_append_left _ _ (hasAlnum_append_left _ _ (hw ▸ halw))
      · exact hasAlnum_append_right _ _ (ih w hw halw)

/-! ## Where matcher results come from (claim C3) -/

theorem matchAltsAt_mem :
    ∀ (alts : List String) (cs : List Char) (w : String),
      matchAltsAt alts cs = some w → w ∈ alts := by
  intro alts
  induction alts with
  | nil => intro cs w h; cases h
  | cons a rest ih =>
    intro cs w h
    rw [matchAltsAt] at h
    cases he : eatLit a.data cs with
    | some rem =>
      rw [he] at h
      dsimp only at h
      by_cases hb : boundAfter rem = true
      · rw [if_pos hb] at h
        exact (Option.some.inj h) ▸ List.mem_cons_self a rest
      · rw [if_neg hb] at h
        exact List.mem_cons_of_mem a (ih cs w h)
    | none =>
      rw [he] at h
      dsimp only at h
      exact List.mem_cons_of_mem a (ih cs w h)

theorem searchWordAltsGo_mem (alts : List String) :
    ∀ (cs : List Char) (prev : Option Char) (w : String),
      searchWordAltsGo alts prev cs = some w → w ∈ alts := by
  intro cs
  induction cs with
  | nil =>
    intro prev w h
    rw [searchWordAltsGo] at h
    cases hm : (if prevOk prev then matchAltsAt alts [] else none) with
    | some v =>
      rw [hm] at h
      dsimp only at h
      by_cases hp : prevOk prev = true
      · rw [if_pos hp] at hm
        exact (Option.some.inj h) ▸ matchAltsAt_mem alts [] v hm
      · rw [if_neg hp] at hm
        cases hm
    | none => rw [hm] at h; cases h
  | cons c rest ih =>
    intro prev w h
    rw [searchWordAltsGo] at h
    cases hm : (if prevOk prev then matchAltsAt alts (c :: rest) else none) with
    | some v =>
      rw [hm] at h
      dsimp only at h
      by_cases hp : prevOk prev = true
      · rw [if_pos hp] at hm
        exact (Option.some.inj h) ▸ matchAltsAt_mem alts _ v hm
      · rw [if_neg hp] at hm
        cases hm
    | none =>
      rw [hm] at h
      dsimp only at h
      exact ih (some c) w h

theorem searchWordAlts_mem (alts : List String) (s : String) (w : String)
    (h : searchWordAlts alts s = some w) : w ∈ alts :=
  searchWordAltsGo_mem alts s.data none w h

theorem firstPatternValue_hasAlnum
    (pats : List (List String × Option String)) (t : String) (w : String)
    (hp : ∀ pr ∈ pats, (∀ v ∈ pr.1, hasAlnum v = true) ∧
      (∀ r, pr.2 = some r → hasAlnum r = true))
    (h : firstPatternValue pats t = some w) : hasAlnum w = true := by
  induction pats with
  | nil => cases h
  | cons pr rest ih =>
    obtain ⟨alts, repl⟩ := pr
    rw [firstPatternValue] at h
    cases hs : searchWordAlts alts t with
    | some v =>
      rw [hs] at h
      have hw : repl.getD v = w := Option.some.inj h
      cases repl with
      | some r =>
        exact hw ▸ (hp (alts, some r) (List.mem_cons_self _ _)).2 r rfl
      | none =>
        have hv : v ∈ alts := searchWordAlts_mem alts t v hs
        exact hw ▸ (hp (alts, none) (List.mem_cons_self _ _)).1 v hv
    | none =>
      rw [hs] at h
      exact ih (fun pr hpr => hp pr (List.mem_cons_of_mem _ hpr)) h

theorem dominantInstrument_mem (terms : List String) (t : String) (w : String)
    (h : dominantInstrument terms t = some w) :
    w = "principal" ∨ w = "interest" := by
  simp only [dominantInstrument] at h
  split_ifs at h with h1 h2 h3 h4 h5 <;>
    first
      | exact Or.inl (Option.some.inj h).symm
      | exact Or.inr (Option.some.inj h).symm
      | cases h

theorem extractInstrument_hasAlnum (terms : List String) (t : String)
    (w : String) (h : extractInstrument terms t = some w) :
    hasAlnum w = true := by
  rw [extractInstrument] at h
  cases hd : dominantInstrument terms t with
  | some v =>
    rw [hd] at h
    rcases dominantInstrument_mem terms t v hd with hv | hv <;>
      rw [← Option.some.inj h, hv] <;> decide
  | none =>
    rw [hd] at h
    have hmem := searchWordAlts_mem _ t w h
    have : ∀ v ∈ ["note", "certificate", "bond", "security"],
        hasAlnum v = true := by decide
    exact this w hmem

theorem findDirectFinancialTerm_hasAlnum (t : String) (n : String)
    (h : findDirectFinancialTerm t = some n) : hasAlnum n = true := by
  rw [findDirectFinancialTerm] at h
  cases hf : directFinancialPatterns.find? (fun p => searchSeqBound p.1 t) with
  | none => rw [hf] at h; cases h
  | some p =>
    rw [hf] at h
    have hmem := List.mem_of_find?_eq_some hf
    have : ∀ q ∈ directFinancialPatterns, hasAlnum q.2 = true := by decide
    exact (Option.some.inj h) ▸ this p hmem

theorem amountType_hasAlnum (t : String) (p : List (List String) × String)
    (h : amountTypePatterns.find? (fun q => searchSeqBound q.1 t) = some p) :
    hasAlnum p.2 = true := by
  have hmem := List.mem_of_find?_eq_some h
  have : ∀ q ∈ amountTypePatterns, hasAlnum q.2 = true := by decide
  exact this p hmem

theorem findBetterPattern_good (t : String) (n : String)
    (h : findBetterPattern t = some n) : goodShape n = true := by
  rw [findBetterPattern] at h
  cases hf : betterSpecificPatterns.find? (fun p => searchSeqOpen p.1 t) with
  | some p =>
    rw [hf] at h
    have hmem := List.mem_of_find?_eq_some hf
    have : ∀ q ∈ betterSpecificPatterns, goodShape q.2 = true := by decide
    exact (Option.some.inj h) ▸ this p hmem
  | none =>
    rw [hf] at h
    by_cases hc : searchClassLetterSpace t = true
    · rw [if_pos hc] at h
      rw [← Option.some.inj h]
      decide
    · rw [if_neg hc] at h
      cases h

/-! ## Goodness of the per-cluster naming pipeline (claim C3) -/

theorem lowerShape_ne_underscore_alnum (c : Char)
    (h1 : lowerShapeChar c = true) (h2 : c ≠ '_') : c.isAlphanum = true := by
  rw [lowerShapeChar_iff_toNat] at h1
  rw [isAlphanum_iff_toNat]
  have h3 : c.toNat ≠ 95 := by
    intro hc
    apply h2
    rw [char_eq_iff_toNat, hc]
    rfl
  omega

theorem hasAlnum_of_goodShape (s : String) (h : goodShape s = true) :
    hasAlnum s = true := by
  rw [goodShape] at h
  cases hd : s.data with
  | nil => rw [hd] at h; cases h
  | cons c rest =>
    rw [hd] at h
    rw [goodShapeL] at h
    simp only [Bool.and_eq_true, decide_eq_true_eq, List.all_eq_true] at h
    have hc : c.isAlphanum = true :=
      lowerShape_ne_underscore_alnum c
        (h.1.2 c (List.mem_cons_self c rest)) h.1.1.1
    rw [hasAlnum, hd]
    exact List.any_eq_true.mpr ⟨c, List.mem_cons_self c rest, hc⟩

theorem build_from_common_words_hasAlnum (common terms : List String)
    (hne : terms ≠ []) (ht : ∀ t ∈ terms, hasAlnum t = true) :
    hasAlnum (build_from_common_words common terms) = true := by
  rw [build_from_common_words]
  by_cases hce : common.isEmpty = true
  · rw [if_pos hce]
    exact ht _ (select_best_term_mem terms hne)
  · rw [if_neg hce]
    show hasAlnum
      (if (selectWords (sortSndDesc (scoredWords common))).isEmpty
       then select_best_term terms
       else joinSep "_" (selectWords (sortSndDesc (scoredWords common)))) = true
    by_cases hse : (selectWords (sortSndDesc (scoredWords common))).isEmpty = true
    · rw [if_pos hse]
      exact ht _ (select_best_term_mem terms hne)
    · rw [if_neg hse]
      cases hsel : selectWords (sortSndDesc (scoredWords common)) with
      | nil => rw [hsel] at hse; exact absurd rfl hse
      | cons w ws =>
        have hwmem : w ∈ selectWords (sortSndDesc (scoredWords common)) := by
          rw [hsel]
          exact List.mem_cons_self w ws
        obtain ⟨s, hs, h40⟩ := selectWords_mem _ w hwmem
        have hsw := sortSndDesc_mem _ _ hs
        rcases scoredWords_mem common w s hsw with htab | h30
        · have hgood := (wordPriorities_words_ok (w, s) htab).1
          exact joinSep_hasAlnum _ w (List.mem_cons_self w ws)
            (hasAlnum_of_goodShape w hgood)
        · omega

theorem optPart_mem (o : Option String) (w : String) (h : w ∈ optPart o) :
    o = some w := by
  cases o with
  | none => cases h
  | some v =>
    have : w = v := by simpa [optPart] using h
    rw [this]

theorem patTableAlnum (pats : List (List String × Option String))
    (h0 : ∀ pr ∈ pats, (∀ v ∈ pr.1, hasAlnum v = true) ∧
      (pr.2.map hasAlnum).getD true = true) :
    ∀ pr ∈ pats, (∀ v ∈ pr.1, hasAlnum v = true) ∧
      (∀ r, pr.2 = some r → hasAlnum r = true) := by
  intro pr hpr
  refine ⟨(h0 pr hpr).1, ?_⟩
  intro r hr
  have h2 := (h0 pr hpr).2
  rw [hr] at h2
  simpa using h2

theorem parts_if_alnum (common terms : List String) (P : List String)
    (hne : terms ≠ []) (ht : ∀ t ∈ terms, hasAlnum t = true)
    (hP : ∀ w ∈ P, hasAlnum w = true) :
    hasAlnum (if P.isEmpty then build_from_common_words common terms
      else joinSep "_" P) = true := by
  by_cases hp : P.isEmpty = true
  · rw [if_pos hp]
    exact build_from_common_words_hasAlnum common terms hne ht
  · rw [if_neg hp]
    cases P with
    | nil => exact absurd rfl hp
    | cons w ws =>
      exact joinSep_hasAlnum _ w (List.mem_cons_self w ws)
        (hP w (List.mem_cons_self w ws))

theorem identify_hasAlnum (terms common : List String) (hne : terms ≠ [])
    (ht : ∀ t ∈ terms, hasAlnum t = true) :
    hasAlnum (identify_core_concept terms common) = true := by
  cases hfd : findDirectFinancialTerm (strToLower (joinSep " " terms)) with
  | some n =>
    have hcomps : extract_concept_components terms =
        { emptyComponents with direct := some n } := by
      simp only [extract_concept_components, hfd]
    simp only [identify_core_concept, hcomps]
    exact findDirectFinancialTerm_hasAlnum _ n hfd
  | none =>
    have hcomps : extract_concept_components terms =
        extractComponentsCore terms := by
      simp only [extract_concept_components, hfd]
    have hdir : (extractComponentsCore terms).direct = none := rfl
    simp only [identify_core_concept, hcomps, hdir]
    apply parts_if_alnum common terms _ hne ht
    intro w hw
    rcases List.mem_append.mp hw with hw | hw
    rotate_left
    · have hte := optPart_mem _ w hw
      have : firstPatternValue temporalPatterns
          (strToLower (joinSep " " terms)) = some w := hte
      refine firstPatternValue_hasAlnum _ _ w (patTableAlnum _ ?_) this
      decide
    rcases List.mem_append.mp hw with hw | hw
    rotate_left
    · have hco := optPart_mem _ w hw
      have : firstPatternValue conceptPatterns
          (strToLower (joinSep " " terms)) = some w := hco
      refine firstPatternValue_hasAlnum _ _ w (patTableAlnum _ ?_) this
      decide
    rcases List.mem_append.mp hw with hw | hw
    rotate_left
    · have hac := optPart_mem _ w hw
      have : firstPatternValue actionPatterns
          (strToLower (joinSep " " terms)) = some w := hac
      refine firstPatternValue_hasAlnum _ _ w (patTableAlnum _ ?_) this
      decide
    rcases List.mem_append.mp hw with hw | hw
    rotate_left
    · have hat := optPart_mem _ w hw
      have hat2 : (match amountTypePatterns.find?
          (fun p => searchSeqBound p.1 (strToLower (joinSep " " terms))) with
        | some p => some p.2
        | none => none) = some w := hat
      cases hf : amountTypePatterns.find?
          (fun p => searchSeqBound p.1 (strToLower (joinSep " " terms))) with
      | none => rw [hf] at hat2; cases hat2
      | some p =>
        rw [hf] at hat2
        have : p.2 = w := by simpa using hat2
        exact this ▸ amountType_hasAlnum _ p hf
    rcases List.mem_append.mp hw with hw | hw
    rotate_left
    · have hin := optPart_mem _ w hw
      exact extractInstrument_hasAlnum terms _ w hin
    · cases hcl : (extractComponentsCore terms).cls with
      | some c =>
        rw [hcl] at hw
        dsimp only at hw
        have : w = "class_" ++ c.toString := by simpa using hw
        rw [this]
        exact hasAlnum_append_left _ _ (by decide)
      | none =>
        rw [hcl] at hw
        dsimp only at hw
        cases htr : (extractComponentsCore terms).tranche with
        | some c =>
          rw [htr] at hw
          dsimp only at hw
          have : w = "tranche_" ++ c.toString := by simpa using hw
          rw [this]
          exact hasAlnum_append_left _ _ (by decide)
        | none =>
          rw [htr] at hw
          dsimp only at hw
          cases hw

theorem generate_single_good (terms : List String) (hne : terms ≠ [])
    (ht : ∀ t ∈ terms, hasAlnum t = true) :
    goodShape (generate_single_canonical_name terms) = true := by
  have hne' : terms.isEmpty ≠ true := by
    cases terms with
    | nil => exact absurd rfl hne
    | cons t rest => simp
  simp only [generate_single_canonical_name, if_neg hne']
  apply clean_good
  by_cases hc : (identify_core_concept terms (find_common_words terms) = ""
      || (identify_core_concept terms (find_common_words terms)).length > 50)
      = true
  · rw [if_pos hc]
    exact ht _ (select_best_term_mem terms hne)
  · rw [if_neg hc]
    exact identify_hasAlnum terms _ hne ht

theorem pyStrip_strToLower (t : String) (h : pyStrip t = t) :
    pyStrip (strToLower t) = strToLower t := by
  have hfun : (isSpaceChar ∘ Char.toLower) = isSpaceChar := by
    funext c
    exact isSpaceChar_toLower c
  have hdata : (((t.data.dropWhile isSpaceChar).reverse.dropWhile
      isSpaceChar).reverse) = t.data := congrArg String.data h
  show String.mk ((((t.data.map Char.toLower).dropWhile
      isSpaceChar).reverse.dropWhile isSpaceChar).reverse) = strToLower t
  rw [List.dropWhile_map, hfun, ← List.map_reverse, List.dropWhile_map, hfun,
    ← List.map_reverse, hdata]
  rfl

theorem junkSet_ok : ∀ j ∈ junkSet,
    goodShape j = true ∧ j.data.all (fun c => !(c = ' ')) = true := by
  decide

theorem spacesToUnderscores_id (s : String)
    (h : ∀ c ∈ s.data, ¬ c = ' ') : spacesToUnderscores s = s := by
  show String.mk (s.data.map (fun c => if c = ' ' then '_' else c)) = s
  have h2 : s.data.map (fun c => if c = ' ' then '_' else c) = s.data := by
    conv_rhs => rw [← List.map_id s.data]
    apply List.map_congr_left
    intro c hc
    rw [if_neg (h c hc)]
    rfl
  rw [h2]

theorem create_better_good (terms : List String) (originalName : String)
    (hne : terms ≠ [])
    (ht : ∀ t ∈ terms, hasAlnum t = true ∧ trimFree t = true)
    (ho : goodShape originalName = true) :
    goodShape (create_better_canonical_name terms originalName) = true := by
  rw [create_better_canonical_name]
  cases hfb : findBetterPattern (strToLower (joinSep " " terms)) with
  | some n => exact findBetterPattern_good _ n hfb
  | none =>
    dsimp only
    by_cases hex : (terms.length = 1 &&
        junkSet.contains (pyStrip (strToLower (terms.headD "")))) = true
    · rw [if_pos hex]
      simp only [Bool.and_eq_true, decide_eq_true_eq] at hex
      cases terms with
      | nil => exact absurd rfl hne
      | cons t rest =>
        have htt := ht t (List.mem_cons_self t rest)
        have hstrip : pyStrip (strToLower t) = strToLower t :=
          pyStrip_strToLower t (of_decide_eq_true htt.2)
        have hj : strToLower t ∈ junkSet := by
          have := hex.2
          rw [List.headD_cons, hstrip] at this
          exact List.mem_of_elem_eq_true this
        have hjok := junkSet_ok _ hj
        have hsp : spacesToUnderscores (strToLower t) = strToLower t := by
          apply spacesToUnderscores_id
          intro c hc
          have := List.all_eq_true.mp hjok.2 c hc
          simpa using this
        rw [List.headD_cons, hsp]
        have hpre : ("excluded_generic_" : String) =
            "excluded_generic" ++ "_" := by decide
        rw [hpre]
        exact goodShape_append_underscore _ _ (by decide) hjok.1
    · rw [if_neg hex]
      cases hm : terms.filter (fun t => (pySplit (strToLower t)).length > 1) with
      | nil =>
        have hpre : ("low_priority_" : String) = "low_priority" ++ "_" := by
          decide
        rw [hpre]
        exact goodShape_append_underscore _ _ (by decide) ho
      | cons m ms =>
        apply clean_good
        have hmem : (ms.foldl
            (fun best u => if u.length < best.length then u else best) m)
            ∈ m :: ms :=
          foldl_choice_mem (fun u best => u.length < best.length) ms m
        have hsub : (ms.foldl
            (fun best u => if u.length < best.length then u else best) m)
            ∈ terms := by
          have := hm ▸ hmem
          exact List.mem_of_mem_filter this
        exact (ht _ hsub).1

theorem nameOneCluster_good (terms : List String) (hne : terms ≠ [])
    (ht : ∀ t ∈ terms, hasAlnum t = true ∧ trimFree t = true) :
    goodShape (nameOneCluster terms) = true := by
  rw [nameOneCluster]
  have hg : goodShape (generate_single_canonical_name terms) = true :=
    generate_single_good terms hne (fun t htm => (ht t htm).1)
  by_cases hj : is_junk_canonical_name
      (generate_single_canonical_name terms) = true
  · rw [if_pos hj]
    exact create_better_good terms _ hne ht hg
  · rw [if_neg hj]
    exact hg

/-! ## The essential pass preserves name shape (claim C3) -/

theorem looseLetterAt_range (word cs : List Char) (c : Char)
    (h : looseLetterAt word cs = some c) : 'a' ≤ c ∧ c ≤ 'f' := by
  rw [looseLetterAt] at h
  cases he : eatLit word cs with
  | none => rw [he] at h; cases h
  | some rem =>
    rw [he] at h
    dsimp only at h
    cases hd : rem.dropWhile isSpaceChar with
    | nil => rw [hd] at h; cases h
    | cons d rest2 =>
      rw [hd] at h
      dsimp only at h
      by_cases hr : ('a' ≤ d.toLower && d.toLower ≤ 'f') = true
      · rw [if_pos hr] at h
        by_cases hb : boundAfter rest2 = true
        · rw [if_pos hb] at h
          have hc : d.toLower = c := Option.some.inj h
          simp only [Bool.and_eq_true, decide_eq_true_eq] at hr
          exact hc ▸ hr
        · rw [if_neg hb] at h
          cases h
      · rw [if_neg hr] at h
        cases h

theorem searchLooseLetterGo_range (word : List Char) :
    ∀ (cs : List Char) (c : Char),
      searchLooseLetterGo word cs = some c → 'a' ≤ c ∧ c ≤ 'f' := by
  intro cs
  induction cs with
  | nil =>
    intro c h
    rw [searchLooseLetterGo] at h
    cases ha : looseLetterAt word [] with
    | some d =>
      rw [ha] at h
      exact (Option.some.inj h) ▸ looseLetterAt_range word [] d ha
    | none => rw [ha] at h; cases h
  | cons x rest ih =>
    intro c h
    rw [searchLooseLetterGo] at h
    cases ha : looseLetterAt word (x :: rest) with
    | some d =>
      rw [ha] at h
      exact (Option.some.inj h) ▸ looseLetterAt_range word _ d ha
    | none =>
      rw [ha] at h
      exact ih c h

theorem searchClassLoose_range (s : String) (c : Char)
    (h : searchClassLoose s = some c) : 'a' ≤ c ∧ c ≤ 'f' :=
  searchLooseLetterGo_range _ s.data c h

theorem goodShape_charToString (c : Char) (h1 : 'a' ≤ c) (h2 : c ≤ 'f') :
    goodShape c.toString = true := by
  rw [char_le_iff_toNat] at h1 h2
  have ha : ('a').toNat = 97 := rfl
  have hf : ('f').toNat = 102 := rfl
  rw [ha] at h1
  rw [hf] at h2
  have hne : c ≠ '_' := by
    intro hc
    subst hc
    have : ('_').toNat = 95 := rfl
    omega
  have hls : lowerShapeChar c = true := by
    rw [lowerShapeChar_iff_toNat]
    omega
  show goodShapeL [c] = true
  simp only [goodShapeL, List.all_cons, List.all_nil, noDoubleUnderscore,
    List.getLastD]
  simp [hne, hls]

theorem essentialPatterns_names_good :
    ∀ pr ∈ essentialPatterns, goodShape pr.1 = true := by
  decide

theorem enhanceEssentialName_good (p allText : String)
    (hp : goodShape p = true) :
    goodShape (enhanceEssentialName p allText) = true := by
  rw [enhanceEssentialName]
  cases hc : searchClassLoose allText with
  | none => exact hp
  | some c =>
    obtain ⟨h1, h2⟩ := searchClassLoose_range allText c hc
    have hcs : goodShape ("class_" ++ c.toString) = true := by
      have hcl : ("class_" : String) = "class" ++ "_" := by decide
      rw [hcl]
      exact goodShape_append_underscore _ _ (by decide)
        (goodShape_charToString c h1 h2)
    exact goodShape_append_underscore _ _ hcs hp

theorem updateAssoc_snd_mem (names : List (Nat × String)) (k : Nat)
    (v : String) (e : Nat × String) (h : e ∈ updateAssoc names k v) :
    e ∈ names ∨ e.2 = v := by
  rw [updateAssoc] at h
  rcases List.mem_map.mp h with ⟨p, hp, hpe⟩
  by_cases hk : p.1 = k
  · rw [if_pos hk] at hpe
    exact Or.inr (by rw [← hpe])
  · rw [if_neg hk] at hpe
    exact Or.inl (hpe ▸ hp)

/-! ## Essential-term post-hoc pass (claim C5) -/

theorem lookupName_updateAssoc_ne (names : List (Nat × String)) (id0 : Nat)
    (n : String) (k : Nat) (h : k ≠ id0) :
    lookupName (updateAssoc names id0 n) k = lookupName names k := by
  induction names with
  | nil => rfl
  | cons hd tl ih =>
    obtain ⟨k0, v0⟩ := hd
    rw [updateAssoc, List.map_cons]
    by_cases h0 : k0 = id0
    · rw [if_pos h0, lookupName, lookupName, if_neg (by omega), if_neg (by omega)]
      exact ih
    · rw [if_neg h0, lookupName, lookupName]
      by_cases hk : k0 = k
      · rw [if_pos hk, if_pos hk]
      · rw [if_neg hk, if_neg hk]
        exact ih

theorem lookupName_updateAssoc_self (names : List (Nat × String)) (id0 : Nat)
    (n : String) :
    lookupName (updateAssoc names id0 n) id0 =
      (lookupName names id0).map (fun _ => n) := by
  induction names with
  | nil => rfl
  | cons hd tl ih =>
    obtain ⟨k0, v0⟩ := hd
    rw [updateAssoc, List.map_cons]
    by_cases h0 : k0 = id0
    · rw [if_pos h0, lookupName, lookupName, if_pos rfl, if_pos h0]
      rfl
    · rw [if_neg h0, lookupName, lookupName, if_neg h0, if_neg h0]
      exact ih

theorem essPatternsGo_some (allText : String) (junky : Bool) :
    ∀ (pats : List (String × List (List String))) (cur : Option String)
      (found fired : List String) (n : String),
      (essPatternsGo allText junky pats (cur, found, fired)).1 = some n →
      cur = some n ∨
        (junky = true ∧ ∃ p rs, (p, rs) ∈ pats ∧
          rs.any (fun ws => searchSeqOpen [ws] allText) = true ∧
          n = enhanceEssentialName p allText) := by
  intro pats
  induction pats with
  | nil => intro cur found fired n h; exact Or.inl h
  | cons hd rest ih =>
    obtain ⟨p, rs⟩ := hd
    intro cur found fired n h
    rw [essPatternsGo] at h
    by_cases hf : p ∈ found
    · rw [if_pos hf] at h
      rcases ih cur found fired n h with h | ⟨hj, q, qs, hq, hm, he⟩
      · exact Or.inl h
      · exact Or.inr ⟨hj, q, qs, List.mem_cons_of_mem _ hq, hm, he⟩
    · rw [if_neg hf] at h
      by_cases hm : rs.any (fun ws => searchSeqOpen [ws] allText) = true
      · rw [if_pos hm] at h
        by_cases hj : junky = true
        · rw [if_pos hj] at h
          rcases ih _ _ _ n h with h | ⟨_, q, qs, hq, hm2, he⟩
          · exact Or.inr ⟨hj, p, rs, List.mem_cons_self _ _, hm,
              (Option.some.inj h).symm⟩
          · exact Or.inr ⟨hj, q, qs, List.mem_cons_of_mem _ hq, hm2, he⟩
        · rw [if_neg hj] at h
          rcases ih _ _ _ n h with h | ⟨hj2, q, qs, hq, hm2, he⟩
          · exact Or.inl h
          · exact Or.inr ⟨hj2, q, qs, List.mem_cons_of_mem _ hq, hm2, he⟩
      · rw [if_neg hm] at h
        rcases ih _ _ _ n h with h | ⟨hj, q, qs, hq, hm2, he⟩
        · exact Or.inl h
        · exact Or.inr ⟨hj, q, qs, List.mem_cons_of_mem _ hq, hm2, he⟩

theorem essClusterStep_names_good (names : List (Nat × String))
    (found : List String) (log : List (Nat × String)) (id0 : Nat)
    (cd : ClusterData) (hg : ∀ e ∈ names, goodShape e.2 = true) :
    ∀ e ∈ (essClusterStep names found log id0 cd).1, goodShape e.2 = true := by
  intro e he
  rw [essClusterStep] at he
  by_cases hskip : skipsEssential ((lookupName names id0).getD "") = true
  · rw [if_pos hskip] at he
    exact hg e he
  · rw [if_neg hskip] at he
    rcases hres : essPatternsGo (strToLower (joinSep " " cd.terms))
        (isOverridableName ((lookupName names id0).getD ""))
        essentialPatterns (none, found, []) with ⟨cur, found2, fired⟩
    rw [hres] at he
    cases cur with
    | none =>
      dsimp only at he
      exact hg e he
    | some n =>
      dsimp only at he
      rcases updateAssoc_snd_mem names id0 n e he with hmem | hval
      · exact hg e hmem
      · rw [hval]
        have hsome := essPatternsGo_some (strToLower (joinSep " " cd.terms))
          (isOverridableName ((lookupName names id0).getD ""))
          essentialPatterns none found [] n (by rw [hres])
        rcases hsome with hcur | ⟨_, p, rs, hpmem, _, hn⟩
        · cases hcur
        · rw [hn]
          exact enhanceEssentialName_good p _
            (essentialPatterns_names_good (p, rs) hpmem)

theorem essScanGo_names_good :
    ∀ (cls : List (Nat × ClusterData))
      (st : List (Nat × String) × List String × List (Nat × String)),
      (∀ e ∈ st.1, goodShape e.2 = true) →
      ∀ e ∈ (essScanGo cls st).1, goodShape e.2 = true := by
  intro cls
  induction cls with
  | nil =>
    intro st h e he
    exact h e he
  | cons x rest ih =>
    intro st h e he
    obtain ⟨id0, cd⟩ := x
    rw [essScanGo] at he
    exact ih _ (essClusterStep_names_good st.1 st.2.1 st.2.2 id0 cd h) e he

theorem essPatternsGo_found_mono (allText : String) (junky : Bool) :
    ∀ (pats : List (String × List (List String))) (cur : Option String)
      (found fired : List String) (x : String), x ∈ found →
      x ∈ (essPatternsGo allText junky pats (cur, found, fired)).2.1 := by
  intro pats
  induction pats with
  | nil => intro cur found fired x hx; exact hx
  | cons hd rest ih =>
    obtain ⟨p, rs⟩ := hd
    intro cur found fired x hx
    rw [essPatternsGo]
    by_cases hf : p ∈ found
    · rw [if_pos hf]
      exact ih cur found fired x hx
    · rw [if_neg hf]
      by_cases hm : rs.any (fun ws => searchSeqOpen [ws] allText) = true
      · rw [if_pos hm]
        by_cases hj : junky = true
        · rw [if_pos hj]
          exact ih _ _ _ x (List.mem_append_left _ hx)
        · rw [if_neg hj]
          exact ih _ _ _ x (List.mem_append_left _ hx)
      · rw [if_neg hm]
        exact ih cur found fired x hx

theorem essPatternsGo_fired (allText : String) (junky : Bool) :
    ∀ (pats : List (String × List (List String))) (cur : Option String)
      (found fired : List String) (p : String),
      p ∈ (essPatternsGo allText junky pats (cur, found, fired)).2.2 →
      p ∈ fired ∨ (p ∉ found ∧
        p ∈ (essPatternsGo allText junky pats (cur, found, fired)).2.1) := by
  intro pats
  induction pats with
  | nil => intro cur found fired p hp; exact Or.inl hp
  | cons hd rest ih =>
    obtain ⟨q, rs⟩ := hd
    intro cur found fired p hp
    rw [essPatternsGo] at hp ⊢
    by_cases hf : q ∈ found
    · rw [if_pos hf] at hp ⊢
      exact ih cur found fired p hp
    · rw [if_neg hf] at hp ⊢
      by_cases hm : rs.any (fun ws => searchSeqOpen [ws] allText) = true
      · rw [if_pos hm] at hp ⊢
        by_cases hj : junky = true
        · rw [if_pos hj] at hp ⊢
          rcases ih _ _ _ p hp with hp2 | ⟨hnf, hfd⟩
          · rcases List.mem_append.mp hp2 with hp3 | hp3
            · exact Or.inl hp3
            · have hpq : p = q := by simpa using hp3
              subst hpq
              refine Or.inr ⟨hf, ?_⟩
              exact essPatternsGo_found_mono allText junky rest _ _ _ p
                (List.mem_append_right _ (by simp))
          · exact Or.inr ⟨fun hc => hnf (List.mem_append_left _ hc), hfd⟩
        · rw [if_neg hj] at hp ⊢
          rcases ih _ _ _ p hp with hp2 | ⟨hnf, hfd⟩
          · exact Or.inl hp2
          · exact Or.inr ⟨fun hc => hnf (List.mem_append_left _ hc), hfd⟩
      · rw [if_neg hm] at hp ⊢
        exact ih cur found fired p hp

theorem essPatternsGo_fired_nodup (allText : String) (junky : Bool) :
    ∀ (pats : List (String × List (List String))) (cur : Option String)
      (found fired : List String), fired.Nodup → (∀ p ∈ fired, p ∈ found) →
      (essPatternsGo allText junky pats (cur, found, fired)).2.2.Nodup := by
  intro pats
  induction pats with
  | nil => intro cur found fired hnd _; exact hnd
  | cons hd rest ih =>
    obtain ⟨q, rs⟩ := hd
    intro cur found fired hnd hsub
    rw [essPatternsGo]
    by_cases hf : q ∈ found
    · rw [if_pos hf]
      exact ih cur found fired hnd hsub
    · rw [if_neg hf]
      by_cases hm : rs.any (fun ws => searchSeqOpen [ws] allText) = true
      · rw [if_pos hm]
        by_cases hj : junky = true
        · rw [if_pos hj]
          refine ih _ _ _ ?_ ?_
          · rw [List.nodup_append]
            exact ⟨hnd, List.nodup_singleton q,
              List.disjoint_singleton.mpr (fun hc => hf (hsub q hc))⟩
          · intro p hp
            rcases List.mem_append.mp hp with hp | hp
            · exact List.mem_append_left _ (hsub p hp)
            · exact List.mem_append_right _ hp
        · rw [if_neg hj]
          refine ih _ _ _ hnd ?_
          intro p hp
          exact List.mem_append_left _ (hsub p hp)
      · rw [if_neg hm]
        exact ih cur found fired hnd hsub

/-- The aggregate lowercased member text of a cluster record (the
repeated `' '.join(cluster_data['terms']).lower()` of the source). -/
theorem essClusterStep_fst_lookup (names : List (Nat × String))
    (found : List String) (log : List (Nat × String)) (id0 : Nat)
    (cd : ClusterData) (k : Nat) :
    lookupName (essClusterStep names found log id0 cd).1 k =
        lookupName names k ∨
      (k = id0 ∧ isOverridableName ((lookupName names id0).getD "") = true ∧
        ∃ p rs, (p, rs) ∈ essentialPatterns ∧
          rs.any (fun ws =>
            searchSeqOpen [ws] (strToLower (joinSep " " cd.terms))) = true ∧
          lookupName (essClusterStep names found log id0 cd).1 k =
            some (enhanceEssentialName p (strToLower (joinSep " " cd.terms)))) := by
  rw [essClusterStep]
  by_cases hskip :
      skipsEssential ((lookupName names id0).getD "") = true
  · rw [if_pos hskip]
    exact Or.inl rfl
  · rw [if_neg hskip]
    rcases hres : essPatternsGo (strToLower (joinSep " " cd.terms))
        (isOverridableName ((lookupName names id0).getD ""))
        essentialPatterns (none, found, []) with ⟨cur, found2, fired⟩
    cases cur with
    | none => exact Or.inl rfl
    | some n =>
      have hres1 : (essPatternsGo (strToLower (joinSep " " cd.terms))
          (isOverridableName ((lookupName names id0).getD ""))
          essentialPatterns (none, found, [])).1 = some n := by
        rw [hres]
      rcases essPatternsGo_some (strToLower (joinSep " " cd.terms))
          (isOverridableName ((lookupName names id0).getD ""))
          essentialPatterns none found [] n hres1 with h | ⟨hj, p, rs, hp, hm, he⟩
      · exact absurd h (by simp)
      · by_cases hk : k = id0
        · subst hk
          cases hl : lookupName names k with
          | none =>
            refine Or.inl ?_
            rw [lookupName_updateAssoc_self, hl]
            rfl
          | some v =>
            rw [hl] at hj
            refine Or.inr ⟨rfl, hj, p, rs, hp, hm, ?_⟩
            rw [lookupName_updateAssoc_self, hl, he]
            rfl
        · refine Or.inl ?_
          exact lookupName_updateAssoc_ne names id0 n k hk

theorem essClusterStep_inv (names : List (Nat × String)) (found : List String)
    (log : List (Nat × String)) (id0 : Nat) (cd : ClusterData)
    (hnd : (log.map Prod.snd).Nodup)
    (hsub : ∀ p ∈ log.map Prod.snd, p ∈ found) :
    ((essClusterStep names found log id0 cd).2.2.map Prod.snd).Nodup ∧
      ∀ p ∈ (essClusterStep names found log id0 cd).2.2.map Prod.snd,
        p ∈ (essClusterStep names found log id0 cd).2.1 := by
  rw [essClusterStep]
  by_cases hskip : skipsEssential ((lookupName names id0).getD "") = true
  · rw [if_pos hskip]
    exact ⟨hnd, hsub⟩
  · rw [if_neg hskip]
    rcases hres : essPatternsGo (strToLower (joinSep " " cd.terms))
        (isOverridableName ((lookupName names id0).getD ""))
        essentialPatterns (none, found, []) with ⟨cur, found2, fired⟩
    have hf2 : found2 = (essPatternsGo (strToLower (joinSep " " cd.terms))
        (isOverridableName ((lookupName names id0).getD ""))
        essentialPatterns (none, found, [])).2.1 := by rw [hres]
    have hfd : fired = (essPatternsGo (strToLower (joinSep " " cd.terms))
        (isOverridableName ((lookupName names id0).getD ""))
        essentialPatterns (none, found, [])).2.2 := by rw [hres]
    have hfired_nodup : fired.Nodup := by
      rw [hfd]
      exact essPatternsGo_fired_nodup _ _ essentialPatterns none found []
        List.nodup_nil (by simp)
    have hfired_props : ∀ p ∈ fired, p ∉ found ∧ p ∈ found2 := by
      intro p hp
      rw [hfd] at hp
      rcases essPatternsGo_fired _ _ essentialPatterns none found [] p hp
        with h | ⟨h1, h2⟩
      · simp at h
      · exact ⟨h1, by rw [hf2]; exact h2⟩
    have hmono : ∀ x ∈ found, x ∈ found2 := by
      intro x hx
      rw [hf2]
      exact essPatternsGo_found_mono _ _ essentialPatterns none found [] x hx
    have hmap : (log ++ fired.map (fun p => (id0, p))).map Prod.snd =
        log.map Prod.snd ++ fired := by
      rw [List.map_append, List.map_map]
      simp
    have goal2 : ((log ++ fired.map (fun p => (id0, p))).map Prod.snd).Nodup ∧
        ∀ p ∈ (log ++ fired.map (fun p => (id0, p))).map Prod.snd,
          p ∈ found2 := by
      constructor
      · rw [hmap, List.nodup_append]
        exact ⟨hnd, hfired_nodup,
          fun x hx hx2 => (hfired_props x hx2).1 (hsub x hx)⟩
      · intro p hp
        rw [hmap] at hp
        rcases List.mem_append.mp hp with hp | hp
        · exact hmono p (hsub p hp)
        · exact (hfired_props p hp).2
    cases cur with
    | none => exact goal2
    | some n => exact goal2

theorem essScanGo_master (clusters0 : List (Nat × ClusterData))
    (names : List (Nat × String)) :
    ∀ (cls : List (Nat × ClusterData))
      (st : List (Nat × String) × List String × List (Nat × String)),
      (∀ x ∈ cls, x ∈ clusters0) →
      (cls.map Prod.fst).Nodup →
      (∀ id1 ∈ cls.map Prod.fst, lookupName st.1 id1 = lookupName names id1) →
      (∀ k, lookupName st.1 k = lookupName names k ∨
        essentialOverride clusters0 names k st.1) →
      (st.2.2.map Prod.snd).Nodup →
      (∀ p ∈ st.2.2.map Prod.snd, p ∈ st.2.1) →
      (∀ k, lookupName (essScanGo cls st).1 k = lookupName names k ∨
          essentialOverride clusters0 names k (essScanGo cls st).1) ∧
        ((essScanGo cls st).2.2.map Prod.snd).Nodup := by
  intro cls
  induction cls with
  | nil =>
    intro st _ _ _ hP hnd _
    exact ⟨hP, hnd⟩
  | cons hd rest ih =>
    obtain ⟨id0, cd⟩ := hd
    intro st hsub hids hrem hP hnd hlogsub
    obtain ⟨nms, found, log⟩ := st
    rw [essScanGo]
    rw [List.map_cons, List.nodup_cons] at hids
    refine ih (essClusterStep nms found log id0 cd) ?_ hids.2 ?_ ?_
      (essClusterStep_inv nms found log id0 cd hnd hlogsub).1
      (essClusterStep_inv nms found log id0 cd hnd hlogsub).2
    · intro x hx
      exact hsub x (List.mem_cons_of_mem _ hx)
    · intro id1 hid1
      have hne : id1 ≠ id0 := fun h => hids.1 (h ▸ hid1)
      rcases essClusterStep_fst_lookup nms found log id0 cd id1
        with h | ⟨heq, _⟩
      · rw [h]
        exact hrem id1 (by rw [List.map_cons]; exact List.mem_cons_of_mem _ hid1)
      · exact absurd heq hne
    · intro k
      rcases essClusterStep_fst_lookup nms found log id0 cd k
        with h | ⟨heq, hj, p, rs, hp, hm, he⟩
      · rcases hP k with h2 | h2
        · left
          rw [h, h2]
        · right
          obtain ⟨cd2, p2, rs2, hcd2, hp2, hm2, hj2, hl2⟩ := h2
          exact ⟨cd2, p2, rs2, hcd2, hp2, hm2, hj2, by rw [h]; exact hl2⟩
      · right
        subst heq
        have horig : lookupName nms k = lookupName names k :=
          hrem k (by rw [List.map_cons]; exact List.mem_cons_self _ _)
        rw [horig] at hj
        exact ⟨cd, p, rs, hsub (k, cd) (List.mem_cons_self _ _), hp, hm, hj, he⟩

theorem isPrefixExact_cons (a : Char) (p s : List Char)
    (h : isPrefixExact (a :: p) s = true) :
    ∃ tl, s = a :: tl ∧ isPrefixExact p tl = true := by
  cases s with
  | nil => simp [isPrefixExact] at h
  | cons b bs =>
    rw [isPrefixExact, Bool.and_eq_true] at h
    have hab : a = b := by simpa using h.1
    exact ⟨bs, by rw [hab], h.2⟩

theorem class_prefixed_not_overridable (nm : String)
    (h : strStartsWith nm "class_" = true) :
    isOverridableName nm = false := by
  rw [strStartsWith] at h
  obtain ⟨t1, e1, h⟩ := isPrefixExact_cons 'c' _ _ h
  obtain ⟨t2, e2, h⟩ := isPrefixExact_cons 'l' _ _ h
  obtain ⟨t3, e3, h⟩ := isPrefixExact_cons 'a' _ _ h
  obtain ⟨t4, e4, h⟩ := isPrefixExact_cons 's' _ _ h
  obtain ⟨t5, e5, h⟩ := isPrefixExact_cons 's' _ _ h
  obtain ⟨t6, e6, _⟩ := isPrefixExact_cons '_' _ _ h
  have hdata : nm.data = 'c' :: 'l' :: 'a' :: 's' :: 's' :: '_' :: t6 := by
    rw [e1, e2, e3, e4, e5, e6]
  have hcls : strStartsWith nm "class_" = true := by
    rw [strStartsWith, hdata]
    simp [isPrefixExact]
  have hex : strStartsWith nm "excluded_" = false := by
    rw [strStartsWith, hdata]
    simp [isPrefixExact]
  have hlp : strStartsWith nm "low_priority_" = false := by
    rw [strStartsWith, hdata]
    simp [isPrefixExact]
  have hjk : junkSet.contains nm = false := by
    by_contra hc
    have hmem : nm ∈ junkSet := by
      simpa using Bool.of_not_eq_false hc
    have hall : ∀ j ∈ junkSet, strStartsWith j "class_" = false := by decide
    rw [hall nm hmem] at hcls
    exact absurd hcls (by simp)
  rw [isOverridableName, hex, hlp, hjk]
  rfl

/-- C5 (amended): the essential pass leaves every cluster whose current
name starts with `class_` untouched, leaves every cluster whose current
name is not overridable (not `excluded_*`, not `low_priority_*`, not in
the junk set) untouched, changes a name only to an essential pattern's
canonical name (with the structural-identifier prefix applied) for a
pattern whose regexes match that cluster's aggregate text while the
original name was overridable, and performs at most one overwrite per
essential pattern globally.  A pattern is consumed by the FIRST
non-skipped matching cluster even when that cluster's name is not
overridable, so a junk-named matching cluster later in iteration order
may stay unchanged (see the counterexample). -/
theorem c5_essential_pass (clusters : List (Nat × ClusterData))
    (names : List (Nat × String))
    (hids : (clusters.map Prod.fst).Nodup) :
    (∀ id0 nm, lookupName names id0 = some nm →
        strStartsWith nm "class_" = true →
        lookupName (ensure_essential_financial_terms clusters names) id0 =
          some nm) ∧
      (∀ id0 nm, lookupName names id0 = some nm →
        isOverridableName nm = false →
        lookupName (ensure_essential_financial_terms clusters names) id0 =
          some nm) ∧
      (∀ k, lookupName (ensure_essential_financial_terms clusters names) k =
          lookupName names k ∨
        essentialOverride clusters names k
          (ensure_essential_financial_terms clusters names)) ∧
      ((ensureEssentialScan clusters names).2.2.map Prod.snd).Nodup := by
  have master := essScanGo_master clusters names clusters (names, [], [])
    (fun x hx => hx) hids (fun id1 _ => rfl) (fun k => Or.inl rfl)
    (by simp) (by simp)
  have hmain : ∀ id0 nm, lookupName names id0 = some nm →
      isOverridableName nm = false →
      lookupName (ensure_essential_financial_terms clusters names) id0 =
        some nm := by
    intro id0 nm hl hnotov
    rcases master.1 id0 with h | h
    · rw [show ensure_essential_financial_terms clusters names =
        (essScanGo clusters (names, [], [])).1 from rfl, h, hl]
    · obtain ⟨cd, p, rs, _, _, _, hj, _⟩ := h
      rw [hl, Option.getD_some, hnotov] at hj
      exact absurd hj (by simp)
  refine ⟨?_, hmain, master.1, master.2⟩
  intro id0 nm hl hcls
  exact hmain id0 nm hl (class_prefixed_not_overridable nm hcls)

/-- C5 (counterexample): the first cluster's text matches the
`servicing_fee` essential pattern but its name `"quality_report"` is not
overridable, so the pattern is consumed without an overwrite; the second
cluster has the junk name `"excluded_generic_x"` and matching text, yet —
contrary to the claim — it is NOT overwritten with `servicing_fee`: the
pass returns the names unchanged. -/
theorem c5_counterexample :
    isOverridableName "excluded_generic_x" = true ∧
      searchSeqOpen [["servicing", "fees"]]
        (strToLower (joinSep " " ["servicing fees due"])) = true ∧
      ensure_essential_financial_terms
        [(0, { terms := ["servicing fee report quality"], count := 1,
               topFeatures := [], cls := none }),
         (1, { terms := ["servicing fees due"], count := 1,
               topFeatures := [], cls := none })]
        [(0, "quality_report"), (1, "excluded_generic_x")] =
      [(0, "quality_report"), (1, "excluded_generic_x")] := by
  decide

/-- C5 (witness): the untouched-`class_`-name part of the theorem at a
concrete cluster whose text matches an essential pattern. -/
theorem c5_essential_pass_witness :
    lookupName (ensure_essential_financial_terms
        [(0, { terms := ["servicing fee x"], count := 1, topFeatures := [],
               cls := none })]
        [(0, "class_a_fee")]) 0 = some "class_a_fee" :=
  (c5_essential_pass
    [(0, { terms := ["servicing fee x"], count := 1, topFeatures := [],
           cls := none })]
    [(0, "class_a_fee")] (by decide)).1 0 "class_a_fee" (by decide) (by decide)

/-! ## Junk filter (claim C6) -/

/-- C6 (failing input): the canonical name `"class_a_total_amount"`
carries a `class_` structural-identifier prefix, yet the junk filter
rejects it.  The guard `any(part.startswith('class_') for part in parts)`
tests the `'_'`-split parts, which can never contain an underscore, so it
can never fire — contradicting the source's own "NEVER consider
class-specific terms as junk" comments. -/
theorem c6_junk_filter_class_guard :
    strStartsWith "class_a_total_amount" "class_" = true ∧
      is_junk_canonical_name "class_a_total_amount" = true := by
  decide

/-! ## Instrument extraction (claim C8) -/

/-- C8 (counterexample): in the cluster
`["principal principal", "interest"]` the words `principal` and
`interest` each appear in exactly one member term, yet the instrument is
set to `principal` (the primary comparison is the total occurrence count
in the concatenated text, 2 vs 1) — the claim's term-count rule would
abstain here. -/
theorem c8_counterexample :
    (extract_concept_components
        ["principal principal", "interest"]).instrument = some "principal" ∧
      List.countP (fun t => strContains (strToLower t) "principal")
        ["principal principal", "interest"] = 1 ∧
      List.countP (fun t => strContains (strToLower t) "interest")
        ["principal principal", "interest"] = 1 := by
  decide

/-- C8 (amended): the instrument is decided first by total
`\bprincipal\b` vs `\binterest\b` occurrence counts in the aggregate
text; on a positive tie, by the number of member terms containing each
word; when still tied (or when neither word occurs), principal/interest
is abstained from — but a generic instrument word
(note/certificate/bond/security) may still fill the field. -/
theorem c8_instrument_rule (terms : List String) (allText : String) :
    ((extractComponentsCore terms).instrument =
        extractInstrument terms (strToLower (joinSep " " terms))) ∧
      (countWord "principal" allText > countWord "interest" allText →
        extractInstrument terms allText = some "principal") ∧
      (countWord "interest" allText > countWord "principal" allText →
        extractInstrument terms allText = some "interest") ∧
      (countWord "principal" allText = countWord "interest" allText →
        0 < countWord "principal" allText →
        (((terms.filter (fun t => strContains (strToLower t) "principal")).length >
            (terms.filter (fun t => strContains (strToLower t) "interest")).length →
          extractInstrument terms allText = some "principal") ∧
          ((terms.filter (fun t => strContains (strToLower t) "interest")).length >
              (terms.filter (fun t => strContains (strToLower t) "principal")).length →
            extractInstrument terms allText = some "interest") ∧
          ((terms.filter (fun t => strContains (strToLower t) "principal")).length =
              (terms.filter (fun t => strContains (strToLower t) "interest")).length →
            extractInstrument terms allText =
              searchWordAlts ["note", "certificate", "bond", "security"]
                allText))) ∧
      (countWord "principal" allText = 0 → countWord "interest" allText = 0 →
        extractInstrument terms allText =
          searchWordAlts ["note", "certificate", "bond", "security"] allText) := by
  refine ⟨rfl, ?_, ?_, ?_, ?_⟩
  · intro h
    simp only [extractInstrument, dominantInstrument]
    rw [if_pos h]
  · intro h
    simp only [extractInstrument, dominantInstrument]
    rw [if_neg (by omega), if_pos h]
  · intro heq hpos
    refine ⟨?_, ?_, ?_⟩
    · intro h
      simp only [extractInstrument, dominantInstrument]
      rw [if_neg (by omega), if_neg (by omega),
        if_pos (by simp only [Bool.and_eq_true, decide_eq_true_eq]; omega),
        if_pos h]
    · intro h
      simp only [extractInstrument, dominantInstrument]
      rw [if_neg (by omega), if_neg (by omega),
        if_pos (by simp only [Bool.and_eq_true, decide_eq_true_eq]; omega),
        if_neg (by omega), if_pos h]
    · intro h
      simp only [extractInstrument, dominantInstrument]
      rw [if_neg (by omega), if_neg (by omega),
        if_pos (by simp only [Bool.and_eq_true, decide_eq_true_eq]; omega),
        if_neg (by omega), if_neg (by omega)]
  · intro hp hi
    simp only [extractInstrument, dominantInstrument]
    rw [if_neg (by omega), if_neg (by omega),
      if_neg (by simp only [Bool.and_eq_true, decide_eq_true_eq]; omega)]

/-- C8 (witness): the occurrence-dominance branch and the
abstain-with-generic-instrument branch of the theorem at concrete
clusters. -/
theorem c8_instrument_rule_witness :
    extractInstrument ["principal fee"]
        (strToLower (joinSep " " ["principal fee"])) = some "principal" ∧
      extractInstrument ["principal note", "interest note"]
          (strToLower (joinSep " " ["principal note", "interest note"])) =
        searchWordAlts ["note", "certificate", "bond", "security"]
          (strToLower (joinSep " " ["principal note", "interest note"])) := by
  constructor
  · exact (c8_instrument_rule ["principal fee"]
      (strToLower (joinSep " " ["principal fee"]))).2.1 (by decide)
  · exact ((c8_instrument_rule ["principal note", "interest note"]
      (strToLower (joinSep " " ["principal note", "interest note"]))).2.2.2.1
      (by decide) (by decide)).2.2 (by decide)

/-- C10 (witness): the theorem applied to one class partition and one
general term, with both conjuncts evaluated. -/
theorem c10_cluster_ids_witness :
    ((class_aware_clustering rangeLabeler idFeats [('a', ["class a x"])]
        ["fee"]).map Prod.fst =
      List.range (class_aware_clustering rangeLabeler idFeats
        [('a', ["class a x"])] ["fee"]).length) ∧
      (0 : Nat) < 1 := by
  have h := c10_cluster_ids rangeLabeler idFeats [('a', ["class a x"])] ["fee"]
  refine ⟨h.1, ?_⟩
  exact h.2
    (0, { terms := ["class a x"], count := 1, topFeatures := ["class a x"],
          cls := some 'a' })
    (1, { terms := ["fee"], count := 1, topFeatures := ["fee"], cls := none })
    (by decide) (by decide) (by decide) (by decide)

/-- C3: the claim, amended.  For every cluster list whose member term
lists are non-empty and whose member terms each contain an ASCII
alphanumeric character and carry no leading or trailing whitespace,
every canonical name produced by the full naming pipeline
(`generate_canonical_names`, which chains
`_generate_single_canonical_name`, `_create_better_canonical_name` and
`_ensure_essential_financial_terms`) is a non-empty `[a-z0-9_]+` string
with no leading, trailing or doubled underscore.  The claim's bare
"any non-empty term list" is refuted by `c3_counterexample`. -/
theorem c3_canonical_name_shape (clusters : List (Nat × ClusterData))
    (h : ∀ p ∈ clusters, p.2.terms ≠ [] ∧
      ∀ t ∈ p.2.terms, hasAlnum t = true ∧ trimFree t = true) :
    ∀ q ∈ generate_canonical_names clusters, goodShape q.2 = true := by
  intro q hq
  rw [generate_canonical_names, ensure_essential_financial_terms,
    ensureEssentialScan] at hq
  refine essScanGo_names_good clusters _ ?_ q hq
  intro e he
  rcases List.mem_map.mp he with ⟨p, hp, hpe⟩
  rw [← hpe]
  exact nameOneCluster_good p.2.terms (h p hp).1
    (fun t htm => (h p hp).2 t htm)

/-- C3 (counterexample to the unamended claim): the cluster whose single
member term is the non-empty string `"!! ??"` receives the empty string
as its canonical name, which is not of the promised `[a-z0-9_]+`
shape. -/
theorem c3_counterexample :
    generate_canonical_names
        [(0, { terms := ["!! ??"], count := 1, topFeatures := [],
               cls := none })] = [(0, "")] ∧
      goodShape "" = false := by
  constructor
  · decide
  · decide

/-- C3 (witness): the theorem applied to a concrete well-formed cluster. -/
theorem c3_canonical_name_shape_witness :
    (∀ p ∈ [((0 : Nat),
        ({ terms := ["class a principal"], count := 1,
           topFeatures := ["class a principal"],
           cls := some 'a' } : ClusterData))],
      p.2.terms ≠ [] ∧
        ∀ t ∈ p.2.terms, hasAlnum t = true ∧ trimFree t = true) ∧
      ∀ q ∈ generate_canonical_names
          [((0 : Nat),
            ({ terms := ["class a principal"], count := 1,
               topFeatures := ["class a principal"],
               cls := some 'a' } : ClusterData))],
        goodShape q.2 = true :=
  ⟨by decide, c3_canonical_name_shape _ (by decide)⟩

end FinPattern
